import Mathlib

/-!
Verification of the circuit-graph core of a KiCad netlist-analysis service.

The development shallowly embeds the Python source:
  * `kicad_mcp/utils/graph_analysis.py` — `CircuitGraph.__init__`,
    `_build_graph`, `find_path`, `get_neighborhood`,
    `get_pin_electrical_type`, `is_power_edge`, `load_powerSymbols`;
  * `kicad_mcp/tools/graph_tools.py` — the `get_data` cache and `hash_file`.

Python dicts are modelled as insertion-ordered association lists with
unique-key update semantics (`dget?`, `dset`), Python sets of strings as
insertion-ordered duplicate-free lists (`sadd`), and a Python function
that can raise an exception returns `Option` (`none` = exception).
While-loops are translated to fuel-based recursion; the fuel supplied by
the wrappers (`fpFuel`) dominates the number of iterations the Python
loop can perform (one dequeue per iteration, and each enqueue consumes a
fresh visited node, so iterations are bounded by one plus the total size
of all adjacency sets).
-/

set_option maxHeartbeats 1000000

namespace KicadGraph

/-- Lookup in a Python-dict model: first (hence, with unique keys, only)
binding of the key. -/
def dget? {κ α : Type} [DecidableEq κ] : List (κ × α) → κ → Option α
  | [], _ => none
  | (k0, v) :: rest, k => if k0 = k then some v else dget? rest k

/-- Update in a Python-dict model: replace the binding in place if the key
exists, else append the new binding (Python dicts preserve insertion
order). -/
def dset {κ α : Type} [DecidableEq κ] : List (κ × α) → κ → α → List (κ × α)
  | [], k, v => [(k, v)]
  | (k0, v0) :: rest, k, v =>
    if k0 = k then (k0, v) :: rest else (k0, v0) :: dset rest k v

/-- Membership test of a key, Python `k in d`. -/
def dmem {κ α : Type} [DecidableEq κ] (d : List (κ × α)) (k : κ) : Bool :=
  (dget? d k).isSome

/-- The key list of a Python-dict model, in insertion order. -/
def dkeys {κ α : Type} (d : List (κ × α)) : List κ :=
  d.map Prod.fst

/-- Read of a `defaultdict(set)` entry as iterated by the code: the
stored set, or the empty set for an absent key. -/
def aget (d : List (String × List String)) (a : String) : List String :=
  (dget? d a).getD []

/-- Python `set.add` on an insertion-ordered duplicate-free list. -/
def sadd (s : List String) (x : String) : List String :=
  if x ∈ s then s else s ++ [x]

/-- Node kind tag, the value of the `"type"` key of a node dict. -/
inductive NType where
  | component
  | net
  deriving DecidableEq, Repr

/-- Component attributes as delivered by the netlist provider
(`NetlistParser.structure_data`): a string-keyed record such as
`lib_id`, `value`, `description`, `name`.  The provider never emits a
`"type"` key, so the Python merge `{"type": ..., **attrs}` is modelled
by the pair of an `NType` tag and the attribute record. -/
def Attrs : Type := List (String × String)

instance : DecidableEq Attrs := by
  unfold Attrs
  infer_instance

instance : Repr Attrs := by
  unfold Attrs
  infer_instance

/-- A node dict `{"type": t, **attrs}` of `CircuitGraph.nodes`. -/
structure NodeData where
  ntype : NType
  attrs : Attrs
  deriving DecidableEq, Repr

/-- One pin connection of a net, an element of `netlist_data["nets"][n]`:
`{"component": ..., "pin": ..., "electrical_type": ...}`.  `etype none`
models the Python value `None` as well as an absent key (both are
observed only through `conn.get("electrical_type")`). -/
structure Conn where
  component : String
  pin : String
  etype : Option String
  deriving DecidableEq, Repr

/-- The structured netlist handed to `CircuitGraph.__init__`:
`{"components": dict, "nets": dict}`. -/
structure Netlist where
  components : List (String × Attrs)
  nets : List (String × List Conn)
  deriving DecidableEq, Repr

/-- The state of a `CircuitGraph` instance after `__init__`. -/
structure CircuitGraph where
  nodes : List (String × NodeData)
  edges : List ((String × String) × List String)
  adjacency_list : List (String × List String)
  netlist_data : Netlist
  power_symbols : List String
  deriving DecidableEq, Repr

/-- Processing of one pin connection inside `_build_graph`
(`graph_analysis.py` lines 198-209): bidirectional adjacency insertion
(through a `defaultdict(set)`, so an absent key is created) and append
of the pin number to the `(component, net)` edge pin list. -/
def addConn (net_name : String) (g : CircuitGraph) (c : Conn) : CircuitGraph :=
  let adj1 := dset g.adjacency_list c.component
    (sadd (aget g.adjacency_list c.component) net_name)
  let adj2 := dset adj1 net_name (sadd (aget adj1 net_name) c.component)
  let ek : String × String := (c.component, net_name)
  let pins := (dget? g.edges ek).getD []
  { g with
    adjacency_list := adj2
    edges := dset g.edges ek (pins ++ [c.pin]) }

/-- `CircuitGraph._build_graph` (`graph_analysis.py` lines 188-209): one
component node and empty adjacency entry per declared component, then per
net a net node, a reset adjacency entry, and its connections. -/
def buildGraphStep (g : CircuitGraph) (net : String × List Conn) : CircuitGraph :=
  let g1 := { g with
    nodes := dset g.nodes net.1 ⟨NType.net, []⟩
    adjacency_list := dset g.adjacency_list net.1 [] }
  net.2.foldl (addConn net.1) g1

/-- The component pass of `_build_graph` (lines 190-192), starting from
the freshly initialized instance state of `__init__`: one component node
and one empty adjacency entry per declared component. -/
def compStage (nl : Netlist) (ps : List String) : CircuitGraph :=
  nl.components.foldl
    (fun g p =>
      { g with
        nodes := dset g.nodes p.1 ⟨NType.component, p.2⟩
        adjacency_list := dset g.adjacency_list p.1 [] })
    { nodes := [], edges := [], adjacency_list := [], netlist_data := nl,
      power_symbols := ps }

/-- `CircuitGraph.__init__` plus `_build_graph`, with the harvested
power-symbol set passed in as data: `load_powerSymbols` stores the result
of schematic harvesting when a project path is present and the empty set
otherwise, and the harvesting itself is file input handled by the
caller. -/
def buildGraph (nl : Netlist) (ps : List String) : CircuitGraph :=
  nl.nets.foldl buildGraphStep (compStage nl ps)

/-- `load_powerSymbols` selection (`graph_analysis.py` lines 25-30): with
a truthy project path the harvested set is used, otherwise the empty
set. -/
def mkCircuitGraph (nl : Netlist) (project_path : Option String)
    (harvested : List String) : CircuitGraph :=
  buildGraph nl (match project_path with
    | some _ => harvested
    | none => [])

/-- `CircuitGraph.get_pin_electrical_type` (`graph_analysis.py` lines
211-231): first matching pin connection of the net decides; no match
yields the string `"unspecified"`; a matching connection may carry the
Python value `None` (modelled `none`). -/
def get_pin_electrical_type (g : CircuitGraph) (component_ref pin_num net_name : String) :
    Option String :=
  let net_connections := (dget? g.netlist_data.nets net_name).getD []
  match net_connections.find? (fun c => c.component = component_ref ∧ c.pin = pin_num) with
  | some c => c.etype
  | none => some "unspecified"

/-- `CircuitGraph.is_power_edge` (`graph_analysis.py` lines 233-263).
The outer `Option` is the exception channel: `none` models the
`KeyError` of a node lookup on an unknown name, and the
`UnboundLocalError` raised when neither branch of the if/elif resolves
the endpoints (both nodes of the same kind). -/
def is_power_edge (g : CircuitGraph) (from_node to_node : String) : Option Bool :=
  match dget? g.nodes from_node, dget? g.nodes to_node with
  | some nf, some nt =>
    let resolved : Option (String × String) :=
      if nf.ntype = NType.component ∧ ¬ nt.ntype = NType.component then
        some (from_node, to_node)
      else if ¬ nf.ntype = NType.component ∧ nt.ntype = NType.component then
        some (to_node, from_node)
      else
        none
    match resolved with
    | none => none
    | some (component_ref, net_name) =>
      match dget? g.edges (component_ref, net_name) with
      | none => some false
      | some pins =>
        some (pins.any (fun pin_num =>
          let et := get_pin_electrical_type g component_ref pin_num net_name
          et = some "power_in" ∨ et = some "power_out"))
  | _, _ => none

/-- The adjacency set of a node as iterated by the traversals;
`defaultdict(set)` yields the empty set for an absent key. -/
def adjOf (g : CircuitGraph) (n : String) : List String :=
  aget g.adjacency_list n

/-- Symmetry of an adjacency table: membership in a neighbor set goes
both ways. -/
def symAdj (d : List (String × List String)) : Prop :=
  ∀ a b, b ∈ aget d a → a ∈ aget d b

/-- Every recorded adjacency pair joins one name of the first kind with
one name of the second kind (used with the declared component references
and the processed net names during construction). -/
def endpointsAdj (d : List (String × List String)) (ck done : List String) : Prop :=
  ∀ a b, b ∈ aget d a →
    (a ∈ ck ∧ b ∈ done) ∨ (a ∈ done ∧ b ∈ ck)

/-- One `component_details` entry: `{"ref": node, **self.nodes[node]}`
for the breadth-first branch, and the bare `self.nodes[start]` dict
(no `"ref"` key, modelled `none`) for the trivial branch. -/
def Detail : Type := Option String × NodeData

instance : DecidableEq Detail := by
  unfold Detail
  infer_instance

instance : Repr Detail := by
  unfold Detail
  infer_instance

/-- Result dict of `find_path`: the failure shape
`{"success": False, "path": None, "path_length": 0}` or the success shape
with path, component count and detail records. -/
inductive FPResult where
  | failure
  | ok (path : List String) (path_length : Nat) (component_details : List Detail)
  deriving DecidableEq, Repr

/-- The `component_details` comprehension of `find_path` (lines 97-101):
detail records of the component nodes of the path, in path order; a node
lookup failure is a `KeyError`. -/
def pathDetails (g : CircuitGraph) : List String → Option (List Detail)
  | [] => some []
  | n :: rest =>
    match dget? g.nodes n with
    | none => none
    | some nd =>
      match pathDetails g rest with
      | none => none
      | some ds =>
        if nd.ntype = NType.component then some ((some n, nd) :: ds) else some ds

/-- The neighbor loop of one `find_path` iteration (lines 71-112).
`Sum.inl` is an early exit of the whole search (a returned result, or
`none` for an exception); `Sum.inr` is the queue and visited set after
all neighbors are handled. -/
def fpExpand (g : CircuitGraph) (end_node : String) (ignore_power : Bool)
    (current : String) (path : List String) (comp_count : Nat) :
    List String → List (String × List String × Nat) → List String →
    Sum (Option FPResult) (List (String × List String × Nat) × List String)
  | [], q, visited => Sum.inr (q, visited)
  | neighbor :: rest, q, visited =>
    if neighbor ∈ visited then
      fpExpand g end_node ignore_power current path comp_count rest q visited
    else
      match dget? g.nodes neighbor with
      | none => Sum.inl none
      | some nd =>
        let skip : Option Bool :=
          if ignore_power then
            if nd.ntype = NType.net ∧ neighbor ∈ g.power_symbols then some true
            else is_power_edge g current neighbor
          else some false
        match skip with
        | none => Sum.inl none
        | some true =>
          fpExpand g end_node ignore_power current path comp_count rest q visited
        | some false =>
          let new_comp_count :=
            if nd.ntype = NType.component then comp_count + 1 else comp_count
          let new_path := path ++ [neighbor]
          if neighbor = end_node then
            match pathDetails g new_path with
            | none => Sum.inl none
            | some details =>
              Sum.inl (some (FPResult.ok new_path new_comp_count details))
          else
            fpExpand g end_node ignore_power current path comp_count rest
              (q ++ [(neighbor, new_path, new_comp_count)]) (visited ++ [neighbor])

/-- The breadth-first while-loop of `find_path` (lines 63-119), with fuel.
Exhausted fuel yields the no-path failure dict, exactly like an exhausted
queue; the wrapper passes enough fuel for the loop to run to
completion. -/
def fpLoop (g : CircuitGraph) (end_node : String) (ignore_power : Bool)
    (max_depth : Nat) :
    Nat → List (String × List String × Nat) → List String → Option FPResult
  | 0, _, _ => some FPResult.failure
  | _ + 1, [], _ => some FPResult.failure
  | fuel + 1, (current, path, comp_count) :: qrest, visited =>
    if max_depth ≤ comp_count then
      fpLoop g end_node ignore_power max_depth fuel qrest visited
    else
      match fpExpand g end_node ignore_power current path comp_count
          (adjOf g current) qrest visited with
      | Sum.inl r => r
      | Sum.inr (q2, v2) => fpLoop g end_node ignore_power max_depth fuel q2 v2

/-- Fuel bound for the traversal loops: one plus the total size of all
adjacency sets dominates the possible number of dequeues. -/
def fpFuel (g : CircuitGraph) : Nat :=
  1 + g.adjacency_list.foldl (fun a p => a + p.2.length) 0

/-- `CircuitGraph.find_path` (`graph_analysis.py` lines 32-119): absence
guard, trivial equal-endpoint branch, then breadth-first search. -/
def find_path (g : CircuitGraph) (start end_node : String) (ignore_power : Bool)
    (max_depth : Nat) : Option FPResult :=
  if ¬ (dmem g.adjacency_list start ∧ dmem g.adjacency_list end_node) then
    some FPResult.failure
  else if start = end_node then
    match dget? g.nodes start with
    | none => none
    | some nd =>
      if nd.ntype = NType.component then
        some (FPResult.ok [start] 1 [(none, nd)])
      else
        some (FPResult.ok [start] 0 [])
  else
    fpLoop g end_node ignore_power max_depth (fpFuel g) [(start, [start], 0)] [start]

/-- Result dict of `get_neighborhood`: the failure shape
`{"success": False, "start": c, "neighborhood": []}` or the success shape
carrying the start, the radius and the found `(depth, node)` tuples. -/
inductive GNResult where
  | failure (start : String)
  | ok (start : String) (radius : Nat) (neighborhood : List (Nat × String))
  deriving DecidableEq, Repr

/-- The neighborhood member list of a `get_neighborhood` result dict. -/
def GNResult.members : GNResult → List (Nat × String)
  | GNResult.failure _ => []
  | GNResult.ok _ _ l => l

/-- The neighbor loop of one `get_neighborhood` iteration
(`graph_analysis.py` lines 145-171): power filtering, visited marking,
depth bookkeeping (components consume a unit of depth, nets do not) and
collection of `(currentDepth + 1, neighbor)` tuples for components and,
when power is not ignored, for harvested power nets. -/
def gnExpand (g : CircuitGraph) (ignore_power : Bool) (currentNode : String)
    (currentDepth : Nat) :
    List String → List (String × Nat) → List String → List (Nat × String) →
    Option (List (String × Nat) × List String × List (Nat × String))
  | [], q, visited, acc => some (q, visited, acc)
  | neighbor :: rest, q, visited, acc =>
    if neighbor ∈ visited then
      gnExpand g ignore_power currentNode currentDepth rest q visited acc
    else
      match dget? g.nodes neighbor with
      | none => none
      | some nd =>
        let skip : Option Bool :=
          if ignore_power then
            if nd.ntype = NType.net ∧ neighbor ∈ g.power_symbols then some true
            else is_power_edge g currentNode neighbor
          else some false
        match skip with
        | none => none
        | some true =>
          gnExpand g ignore_power currentNode currentDepth rest q visited acc
        | some false =>
          let visited2 := visited ++ [neighbor]
          let q2 := q ++ [(neighbor,
            if nd.ntype = NType.component then currentDepth + 1 else currentDepth)]
          let acc2 :=
            if nd.ntype = NType.component ∨
                (¬ ignore_power ∧ neighbor ∈ g.power_symbols) then
              acc ++ [(currentDepth + 1, neighbor)]
            else acc
          gnExpand g ignore_power currentNode currentDepth rest q2 visited2 acc2

/-- The breadth-first while-loop of `get_neighborhood` (lines 139-171),
with fuel.  An exhausted queue — and, for uniformity, exhausted fuel,
which sufficient fuel makes unreachable — yields the accumulated
member list. -/
def gnLoop (g : CircuitGraph) (ignore_power : Bool) (radius : Nat) :
    Nat → List (String × Nat) → List String → List (Nat × String) →
    Option (List (Nat × String))
  | 0, _, _, acc => some acc
  | _ + 1, [], _, acc => some acc
  | fuel + 1, (currentNode, currentDepth) :: qrest, visited, acc =>
    if radius ≤ currentDepth then
      gnLoop g ignore_power radius fuel qrest visited acc
    else
      match gnExpand g ignore_power currentNode currentDepth
          (adjOf g currentNode) qrest visited acc with
      | none => none
      | some (q2, v2, acc2) => gnLoop g ignore_power radius fuel q2 v2 acc2

/-- `CircuitGraph.get_neighborhood` (`graph_analysis.py` lines 122-186):
absence guard, then breadth-first collection of `(depth, node)`
members within the radius. -/
def get_neighborhood (g : CircuitGraph) (component : String) (ignore_power : Bool)
    (radius : Nat) : Option GNResult :=
  if ¬ dmem g.adjacency_list component then
    some (GNResult.failure component)
  else
    match gnLoop g ignore_power radius (fpFuel g) [(component, 0)] [component] [] with
    | none => none
    | some acc => some (GNResult.ok component radius acc)

/-- One entry of the module-level `project_cache` of `graph_tools.py`:
the built graph, the structured netlist and the content hash recorded at
build time. -/
structure CacheEntry where
  graph : CircuitGraph
  structured_data : Netlist
  hash : Nat
  deriving DecidableEq, Repr

/-- The `project_cache` dict keyed by `f"{project_path}:{schematic_path}"`. -/
def Cache : Type := List (String × CacheEntry)

instance : DecidableEq Cache := by
  unfold Cache
  infer_instance

/-- The outcome of a `get_data` call: the returned pair, the cache state
after the call, and whether the parser ran (lines 39-42 executed). -/
structure GetDataOutcome where
  graph : CircuitGraph
  structured_data : Netlist
  cache : Cache
  parsed : Bool
  deriving DecidableEq

/-- `get_data` of `graph_tools.py` (lines 15-54).  The ambient file
system and collaborators enter as data: `hashFn` is the content digest of
`hash_file`, `fileContent` the current raw bytes of a path, `parse` the
`NetlistParser` pipeline applied to those bytes, and `harvested` the
power-symbol values `get_powerSymbols` would read for the project.  On a
hit (stored hash equal to the current hash) the cached pair is returned
unchanged without parsing; otherwise the netlist is parsed, a fresh graph
is built and the entry is stored under the composite key together with
the current hash. -/
def get_data (hashFn : List Nat → Nat) (fileContent : String → List Nat)
    (parse : List Nat → Netlist) (harvested : List String)
    (cache : Cache) (project_path schematic_path : String) : GetDataOutcome :=
  let cache_key := project_path ++ ":" ++ schematic_path
  let current_hash? : Option Nat :=
    match dget? cache cache_key with
    | some _ => some (hashFn (fileContent schematic_path))
    | none => none
  match dget? cache cache_key, current_hash? with
  | some cached, some h =>
    if cached.hash = h then
      ⟨cached.graph, cached.structured_data, cache, false⟩
    else
      let structured_data := parse (fileContent schematic_path)
      let graph := mkCircuitGraph structured_data
        (if project_path = "" then none else some project_path) harvested
      ⟨graph, structured_data,
        dset cache cache_key ⟨graph, structured_data, h⟩, true⟩
  | _, _ =>
    let structured_data := parse (fileContent schematic_path)
    let graph := mkCircuitGraph structured_data
      (if project_path = "" then none else some project_path) harvested
    let h := hashFn (fileContent schematic_path)
    ⟨graph, structured_data,
      dset cache cache_key ⟨graph, structured_data, h⟩, true⟩

/-! Concrete netlists used by the specification scenarios and by the
witnesses below. -/

/-- The chain scenario of the specification:
components R1, R2, R3; Net1 joins R1 pin 2 to R2 pin 1; Net2 joins
R2 pin 2 to R3 pin 1. -/
def chainNetlist : Netlist :=
  { components := [("R1", [("value", "1k")]), ("R2", [("value", "2k")]),
      ("R3", [("value", "3k")])]
    nets := [("Net1", [⟨"R1", "2", none⟩, ⟨"R2", "1", none⟩]),
      ("Net2", [⟨"R2", "2", none⟩, ⟨"R3", "1", none⟩])] }

/-- The chain graph, built with no project path (empty harvested set). -/
def chainGraph : CircuitGraph := mkCircuitGraph chainNetlist none []

/-- A netlist whose only net is named exactly GND, joining two resistors
through passive pins. -/
def gndNetlist : Netlist :=
  { components := [("R1", [("value", "1k")]), ("R2", [("value", "2k")])]
    nets := [("GND", [⟨"R1", "1", some "passive"⟩, ⟨"R2", "1", some "passive"⟩])] }

/-- The GND-net graph, built with no project path, so the harvested
power-symbol set is empty. -/
def gndGraph : CircuitGraph := mkCircuitGraph gndNetlist none []

/-- A netlist in which the net name A collides with the component
reference A; its single connection references only the declared
component A. -/
def collideNetlist : Netlist :=
  { components := [("A", [("value", "1k")])]
    nets := [("N", [⟨"A", "1", none⟩]), ("A", [])] }

/-- The graph built from the colliding netlist. -/
def collideGraph : CircuitGraph := mkCircuitGraph collideNetlist none []

/-- A netlist with one declared component R1 and a connection whose
component reference R9 is undeclared. -/
def ghostNetlist : Netlist :=
  { components := [("R1", [("value", "1k")])]
    nets := [("Net1", [⟨"R1", "1", none⟩, ⟨"R9", "1", none⟩])] }

/-- The graph built from the netlist with the undeclared reference. -/
def ghostGraph : CircuitGraph := mkCircuitGraph ghostNetlist none []

/-- The number of component nodes on a path of a graph. -/
def countComp (g : CircuitGraph) (p : List String) : Nat :=
  (p.filter (fun x =>
    match dget? g.nodes x with
    | some nd => nd.ntype = NType.component
    | none => false)).length

/-- Wellformedness of a structured netlist per the provider contract and
the data model: component references and net names are each unique (they
are Python dict keys), the two identifier spaces do not collide, and each
pin connection references a declared component. -/
def wfNetlist (nl : Netlist) : Prop :=
  (dkeys nl.components).Nodup ∧
  (dkeys nl.nets).Nodup ∧
  (∀ c ∈ dkeys nl.components, ¬ c ∈ dkeys nl.nets) ∧
  (∀ p ∈ nl.nets, ∀ conn ∈ p.2, conn.component ∈ dkeys nl.components)

/-- Data-model invariants of a constructed graph that the traversals rely
on: every adjacency key has a node record, every adjacency member has a
node record and an adjacency key of its own, and adjacency only links
nodes of opposite kinds (the graph is bipartite). -/
def wfGraph (g : CircuitGraph) : Bool :=
  g.adjacency_list.all (fun p =>
    match dget? g.nodes p.1 with
    | none => false
    | some nd =>
      p.2.all (fun nb =>
        dmem g.adjacency_list nb &&
        match dget? g.nodes nb with
        | none => false
        | some nb_nd => decide (¬ nb_nd.ntype = nd.ntype)))

/-- The breadth-first rank of a `get_neighborhood` queue entry: twice the
component depth, plus one for a net entry.  In a bipartite graph the
queue is sorted by this rank and spans at most two consecutive ranks,
which orders the dequeued depths. -/
def phaseOf (g : CircuitGraph) (e : String × Nat) : Nat :=
  match dget? g.nodes e.1 with
  | some nd => 2 * e.2 + (if nd.ntype = NType.net then 1 else 0)
  | none => 0

/-- The queue invariant of the `get_neighborhood` search in a wellformed
graph: every queued node has a node record and an adjacency key, ranks
are sorted, and all ranks lie within a window of one. -/
def gnQInv (g : CircuitGraph) (q : List (String × Nat)) : Prop :=
  (∀ e ∈ q, (dget? g.nodes e.1).isSome = true ∧ dmem g.adjacency_list e.1 = true) ∧
  q.Pairwise (fun a b => phaseOf g a ≤ phaseOf g b) ∧
  (∀ a ∈ q, ∀ b ∈ q, phaseOf g b ≤ phaseOf g a + 1)

/-- The queue invariant of the `find_path` search: each queued entry
carries a nonempty path that starts at the search start, ends at the
entry node, steps along adjacency, repeats no node, stays inside the
visited set, and whose component count exceeds the entry counter exactly
by the start-node contribution. -/
def fpQInv (g : CircuitGraph) (start : String) (visited : List String)
    (q : List (String × List String × Nat)) : Prop :=
  start ∈ visited ∧
  ∀ e ∈ q, ¬ e.2.1 = [] ∧ e.2.1.head? = some start ∧
    e.2.1.getLast? = some e.1 ∧
    List.Chain' (fun a b => b ∈ adjOf g a) e.2.1 ∧
    e.2.1.Nodup ∧
    (∀ x ∈ e.2.1, x ∈ visited) ∧
    countComp g e.2.1 = e.2.2 + countComp g [start]

/-!  Library lemmas about the dict and set models. -/

theorem dget?_dset_self {κ α : Type} [DecidableEq κ] (d : List (κ × α)) (k : κ) (v : α) :
    dget? (dset d k v) k = some v := by
  induction d with
  | nil => simp [dset, dget?]
  | cons p rest ih =>
    by_cases h : p.1 = k
    · simp [dset, h, dget?]
    · simp [dset, h, dget?, ih]

theorem dget?_dset_ne {κ α : Type} [DecidableEq κ] (d : List (κ × α)) (k : κ) (v : α)
    (x : κ) (h : ¬ x = k) : dget? (dset d k v) x = dget? d x := by
  induction d with
  | nil =>
    have h2 : ¬ k = x := fun h3 => h h3.symm
    simp [dset, dget?, h2]
  | cons p rest ih =>
    obtain ⟨pk, pv⟩ := p
    by_cases h2 : pk = k
    · have h4 : ¬ k = x := fun h5 => h h5.symm
      have h3 : ¬ pk = x := by
        rw [h2]
        exact h4
      simp [dset, h2, dget?, h3, h4]
    · by_cases h3 : pk = x
      · simp [dset, h2, dget?, h3, h]
      · simp [dset, h2, dget?, h3, ih]

theorem dmem_dset {κ α : Type} [DecidableEq κ] (d : List (κ × α)) (k : κ) (v : α)
    (x : κ) : dmem (dset d k v) x = true ↔ (dmem d x = true ∨ x = k) := by
  by_cases h : x = k
  · subst h
    simp [dmem, dget?_dset_self]
  · simp [dmem, dget?_dset_ne d k v x h, h]

theorem dmem_iff_mem_dkeys {κ α : Type} [DecidableEq κ] (d : List (κ × α)) (k : κ) :
    dmem d k = true ↔ k ∈ dkeys d := by
  induction d with
  | nil => simp [dmem, dget?, dkeys]
  | cons p rest ih =>
    by_cases h : p.1 = k
    · simp [dmem, dget?, h, dkeys]
    · have h2 : ¬ k = p.1 := fun h3 => h h3.symm
      simp [dmem, dget?, h, dkeys, h2] at ih ⊢
      exact ih

theorem dkeys_dset_of_mem {κ α : Type} [DecidableEq κ] (d : List (κ × α)) (k : κ)
    (v : α) (h : dmem d k = true) : dkeys (dset d k v) = dkeys d := by
  induction d with
  | nil => simp [dmem, dget?] at h
  | cons p rest ih =>
    by_cases h2 : p.1 = k
    · simp [dset, h2, dkeys]
    · simp [dmem, dget?, h2] at h
      simp [dset, h2, dkeys] at ih ⊢
      exact ih h

theorem dkeys_dset_of_not_mem {κ α : Type} [DecidableEq κ] (d : List (κ × α)) (k : κ)
    (v : α) (h : ¬ dmem d k = true) : dkeys (dset d k v) = dkeys d ++ [k] := by
  induction d with
  | nil => simp [dset, dkeys]
  | cons p rest ih =>
    by_cases h2 : p.1 = k
    · exact absurd (by simp [dmem, dget?, h2]) h
    · simp [dmem, dget?, h2] at h
      simp [dset, h2, dkeys] at ih ⊢
      exact ih (by simp [dmem, h])

theorem mem_sadd (s : List String) (x y : String) :
    y ∈ sadd s x ↔ y ∈ s ∨ y = x := by
  by_cases h : x ∈ s
  · constructor
    · intro h2
      simp [sadd, h] at h2
      exact Or.inl h2
    · intro h2
      cases h2 with
      | inl h3 => simp [sadd, h, h3]
      | inr h3 =>
        subst h3
        simp [sadd, h]
  · simp [sadd, h]

/-- Preservation of a predicate along a left fold. -/
theorem pres_foldl {σ β : Type} (P : σ → Prop) (f : σ → β → σ)
    (hf : ∀ g b, P g → P (f g b)) : ∀ (l : List β) (g : σ), P g → P (l.foldl f g) := by
  intro l
  induction l with
  | nil => exact fun g h => h
  | cons b rest ih => exact fun g h => ih _ (hf g b h)

theorem addConn_nodes (n : String) (g : CircuitGraph) (c : Conn) :
    (addConn n g c).nodes = g.nodes := rfl

theorem foldl_addConn_nodes (n : String) (l : List Conn) (g : CircuitGraph) :
    (l.foldl (addConn n) g).nodes = g.nodes := by
  induction l generalizing g with
  | nil => rfl
  | cons c rest ih => exact (ih (addConn n g c)).trans rfl

theorem dmem_adj_addConn (n : String) (g : CircuitGraph) (c : Conn) (x : String)
    (h : dmem g.adjacency_list x = true) :
    dmem (addConn n g c).adjacency_list x = true := by
  exact (dmem_dset _ _ _ _).mpr (Or.inl ((dmem_dset _ _ _ _).mpr (Or.inl h)))

theorem dmem_adj_foldl_addConn (n : String) (l : List Conn) (g : CircuitGraph)
    (x : String) (h : dmem g.adjacency_list x = true) :
    dmem (l.foldl (addConn n) g).adjacency_list x = true := by
  induction l generalizing g with
  | nil => exact h
  | cons c rest ih => exact ih _ (dmem_adj_addConn n g c x h)

/-- Every node record of a constructed graph has an adjacency entry:
component nodes and net nodes are each created together with their
adjacency key, and later construction steps never remove adjacency
keys. -/
theorem buildGraph_nodes_mem_adj (nl : Netlist) (ps : List String) (x : String)
    (h : dmem (buildGraph nl ps).nodes x = true) :
    dmem (buildGraph nl ps).adjacency_list x = true := by
  have main : ∀ g : CircuitGraph,
      (∀ y, dmem g.nodes y = true → dmem g.adjacency_list y = true) →
      (∀ y, dmem (nl.nets.foldl buildGraphStep g).nodes y = true →
        dmem (nl.nets.foldl buildGraphStep g).adjacency_list y = true) := by
    intro g hg
    refine pres_foldl
      (fun g2 => ∀ y, dmem g2.nodes y = true → dmem g2.adjacency_list y = true)
      buildGraphStep ?_ nl.nets g hg
    intro g2 net hg2 y hy
    unfold buildGraphStep at hy ⊢
    rw [foldl_addConn_nodes] at hy
    apply dmem_adj_foldl_addConn
    simp only at hy ⊢
    rcases (dmem_dset _ _ _ _).mp hy with h2 | h2
    · exact (dmem_dset _ _ _ _).mpr (Or.inl (hg2 y h2))
    · exact (dmem_dset _ _ _ _).mpr (Or.inr h2)
  have comps : ∀ g : CircuitGraph,
      (∀ y, dmem g.nodes y = true → dmem g.adjacency_list y = true) →
      ∀ y, dmem (nl.components.foldl
        (fun g p => { g with
          nodes := dset g.nodes p.1 ⟨NType.component, p.2⟩
          adjacency_list := dset g.adjacency_list p.1 [] }) g).nodes y = true →
      dmem (nl.components.foldl
        (fun g p => { g with
          nodes := dset g.nodes p.1 ⟨NType.component, p.2⟩
          adjacency_list := dset g.adjacency_list p.1 [] }) g).adjacency_list y = true := by
    intro g hg
    refine pres_foldl
      (fun g2 => ∀ y, dmem g2.nodes y = true → dmem g2.adjacency_list y = true)
      _ ?_ nl.components g hg
    intro g2 p hg2 y hy
    simp only at hy ⊢
    rcases (dmem_dset _ _ _ _).mp hy with h2 | h2
    · exact (dmem_dset _ _ _ _).mpr (Or.inl (hg2 y h2))
    · exact (dmem_dset _ _ _ _).mpr (Or.inr h2)
  unfold buildGraph at h ⊢
  refine main _ (comps _ ?_) x h
  intro y hy
  simp [dmem, dget?] at hy

/-- Preservation of a predicate along a left fold, where the step only
has to preserve it for members of the folded list. -/
theorem pres_foldl_mem {σ β : Type} (P : σ → Prop) (f : σ → β → σ) :
    ∀ (l : List β), (∀ g b, b ∈ l → P g → P (f g b)) →
      ∀ (g : σ), P g → P (l.foldl f g) := by
  intro l
  induction l with
  | nil => exact fun _ g h => h
  | cons b rest ih =>
    intro hf g h
    exact ih (fun g2 b2 hb2 h2 => hf g2 b2 (List.mem_cons_of_mem _ hb2) h2) _
      (hf g b (List.mem_cons_self _ _) h)

/-- Node keys of a constructed graph come from the declared components
and nets only; in particular an undeclared connection reference gains no
node. -/
theorem buildGraph_nodes_keys_declared (nl : Netlist) (ps : List String) (x : String)
    (h : dmem (buildGraph nl ps).nodes x = true) :
    x ∈ dkeys nl.components ∨ x ∈ dkeys nl.nets := by
  unfold buildGraph at h
  revert h
  refine pres_foldl_mem
    (fun g => dmem g.nodes x = true → x ∈ dkeys nl.components ∨ x ∈ dkeys nl.nets)
    buildGraphStep nl.nets ?_ _
    (pres_foldl_mem
      (fun g : CircuitGraph =>
        dmem g.nodes x = true → x ∈ dkeys nl.components ∨ x ∈ dkeys nl.nets)
      (fun (g : CircuitGraph) (p : String × Attrs) =>
        { g with
          nodes := dset g.nodes p.1 ⟨NType.component, p.2⟩
          adjacency_list := dset g.adjacency_list p.1 [] })
      nl.components ?_ _ ?_)
  · intro g net hnet hg h
    unfold buildGraphStep at h
    rw [foldl_addConn_nodes] at h
    simp only at h
    rcases (dmem_dset _ _ _ _).mp h with h2 | h2
    · exact hg h2
    · exact Or.inr (h2 ▸ List.mem_map_of_mem Prod.fst hnet)
  · intro g p hp hg h
    simp only at h
    rcases (dmem_dset _ _ _ _).mp h with h2 | h2
    · exact hg h2
    · exact Or.inl (h2 ▸ List.mem_map_of_mem Prod.fst hp)
  · intro h
    simp [dmem, dget?] at h

theorem dmem_edges_addConn (n : String) (g : CircuitGraph) (c : Conn)
    (k : String × String) (h : dmem g.edges k = true) :
    dmem (addConn n g c).edges k = true :=
  (dmem_dset _ _ _ _).mpr (Or.inl h)

theorem dmem_edges_foldl_addConn (n : String) (l : List Conn) (g : CircuitGraph)
    (k : String × String) (h : dmem g.edges k = true) :
    dmem (l.foldl (addConn n) g).edges k = true := by
  induction l generalizing g with
  | nil => exact h
  | cons c rest ih => exact ih _ (dmem_edges_addConn n g c k h)

theorem dmem_edges_buildGraphStep (g : CircuitGraph) (net : String × List Conn)
    (k : String × String) (h : dmem g.edges k = true) :
    dmem (buildGraphStep g net).edges k = true := by
  unfold buildGraphStep
  exact dmem_edges_foldl_addConn _ _ _ _ h

theorem dmem_adj_buildGraphStep (g : CircuitGraph) (net : String × List Conn)
    (x : String) (h : dmem g.adjacency_list x = true) :
    dmem (buildGraphStep g net).adjacency_list x = true := by
  unfold buildGraphStep
  exact dmem_adj_foldl_addConn _ _ _ _ ((dmem_dset _ _ _ _).mpr (Or.inl h))

theorem addConn_self_adj (n : String) (g : CircuitGraph) (c : Conn) :
    dmem (addConn n g c).adjacency_list c.component = true :=
  (dmem_dset _ _ _ _).mpr (Or.inl ((dmem_dset _ _ _ _).mpr (Or.inr rfl)))

theorem addConn_self_edge (n : String) (g : CircuitGraph) (c : Conn) :
    dmem (addConn n g c).edges (c.component, n) = true :=
  (dmem_dset _ _ _ _).mpr (Or.inr rfl)

theorem dmem_adj_foldl_steps (l : List (String × List Conn)) (g : CircuitGraph)
    (x : String) (h : dmem g.adjacency_list x = true) :
    dmem (l.foldl buildGraphStep g).adjacency_list x = true := by
  induction l generalizing g with
  | nil => exact h
  | cons net rest ih => exact ih _ (dmem_adj_buildGraphStep g net x h)

theorem dmem_edges_foldl_steps (l : List (String × List Conn)) (g : CircuitGraph)
    (k : String × String) (h : dmem g.edges k = true) :
    dmem (l.foldl buildGraphStep g).edges k = true := by
  induction l generalizing g with
  | nil => exact h
  | cons net rest ih => exact ih _ (dmem_edges_buildGraphStep g net k h)

theorem aget_dset_self (d : List (String × List String)) (k : String) (v : List String) :
    aget (dset d k v) k = v := by
  simp [aget, dget?_dset_self]

theorem aget_dset_ne (d : List (String × List String)) (k : String) (v : List String)
    (x : String) (h : ¬ x = k) : aget (dset d k v) x = aget d x := by
  simp [aget, dget?_dset_ne d k v x h]

theorem mem_of_mem_sadd_left (s : List String) (x y : String) (h : y ∈ s) :
    y ∈ sadd s x :=
  (mem_sadd s x y).mpr (Or.inl h)

/-- The adjacency effect of one connection: one symmetric pair is added
between the connection component and the net, keys are preserved when
both names are already keyed, and symmetry together with the endpoint
typing is preserved. -/
theorem conn_step_inv (d : List (String × List String)) (comp n : String)
    (ck done : List String) (hcomp : comp ∈ ck) (hn : n ∈ done)
    (hnck : ¬ n ∈ ck) (hdisj : ∀ k ∈ done, ¬ k ∈ ck)
    (hkeys : dkeys d = ck ++ done)
    (hsym : symAdj d) (hend : endpointsAdj d ck done) :
    dkeys (dset (dset d comp (sadd (aget d comp) n)) n
      (sadd (aget (dset d comp (sadd (aget d comp) n)) n) comp)) = ck ++ done ∧
    symAdj (dset (dset d comp (sadd (aget d comp) n)) n
      (sadd (aget (dset d comp (sadd (aget d comp) n)) n) comp)) ∧
    endpointsAdj (dset (dset d comp (sadd (aget d comp) n)) n
      (sadd (aget (dset d comp (sadd (aget d comp) n)) n) comp)) ck done := by
  have hne : ¬ n = comp := fun h => hnck (h ▸ hcomp)
  have hne2 : ¬ comp = n := fun h => hne h.symm
  have hmem_comp : dmem d comp = true := by
    rw [dmem_iff_mem_dkeys, hkeys]
    exact List.mem_append_left _ hcomp
  have hmem1_n : dmem (dset d comp (sadd (aget d comp) n)) n = true := by
    rw [dmem_iff_mem_dkeys, dkeys_dset_of_mem d comp _ hmem_comp, hkeys]
    exact List.mem_append_right _ hn
  have ha_n : aget (dset d comp (sadd (aget d comp) n)) n = aget d n :=
    aget_dset_ne d comp _ n hne
  set d2 := dset (dset d comp (sadd (aget d comp) n)) n
    (sadd (aget (dset d comp (sadd (aget d comp) n)) n) comp) with hd2
  have hlook : ∀ x, aget d2 x =
      if x = n then sadd (aget d n) comp
      else if x = comp then sadd (aget d comp) n
      else aget d x := by
    intro x
    by_cases hx : x = n
    · subst hx
      rw [hd2, aget_dset_self, ha_n, if_pos rfl]
    · by_cases hx2 : x = comp
      · subst hx2
        rw [hd2, aget_dset_ne _ _ _ _ hx, aget_dset_self, if_neg hx, if_pos rfl]
      · rw [hd2, aget_dset_ne _ _ _ _ hx, aget_dset_ne _ _ _ _ hx2,
          if_neg hx, if_neg hx2]
  refine ⟨?_, ?_, ?_⟩
  · rw [hd2, dkeys_dset_of_mem _ _ _ hmem1_n,
      dkeys_dset_of_mem _ _ _ hmem_comp, hkeys]
  · intro a b hb
    rw [hlook] at hb
    rw [hlook]
    by_cases han : a = n
    · rw [if_pos han] at hb
      rcases (mem_sadd _ _ _).mp hb with hb2 | hb2
      · have hbck : b ∈ ck := by
          rcases hend n b hb2 with ⟨h3, _⟩ | ⟨_, h3⟩
          · exact absurd h3 hnck
          · exact h3
        have hbn : ¬ b = n := fun h5 => hnck (h5 ▸ hbck)
        rw [if_neg hbn]
        by_cases hbc : b = comp
        · rw [if_pos hbc]
          exact (mem_sadd _ _ _).mpr (Or.inr han)
        · rw [if_neg hbc]
          exact han ▸ hsym n b hb2
      · rw [hb2, if_neg hne2, if_pos rfl]
        exact (mem_sadd _ _ _).mpr (Or.inr han)
    · rw [if_neg han] at hb
      by_cases hac : a = comp
      · rw [if_pos hac] at hb
        rcases (mem_sadd _ _ _).mp hb with hb2 | hb2
        · have hbdone : b ∈ done := by
            rcases hend comp b hb2 with ⟨_, h3⟩ | ⟨h3, _⟩
            · exact h3
            · exact absurd hcomp (hdisj comp h3)
          have hbc2 : ¬ b = comp := fun h5 => (hdisj b hbdone) (h5 ▸ hcomp)
          rw [hac]
          by_cases hbn : b = n
          · rw [if_pos hbn]
            exact (mem_sadd _ _ _).mpr (Or.inr rfl)
          · rw [if_neg hbn, if_neg hbc2]
            exact hsym comp b hb2
        · rw [hb2, if_pos rfl]
          exact (mem_sadd _ _ _).mpr (Or.inr hac)
      · rw [if_neg hac] at hb
        have hrec := hsym a b hb
        by_cases hbn : b = n
        · rw [if_pos hbn]
          exact mem_of_mem_sadd_left _ _ _ (hbn ▸ hrec)
        · rw [if_neg hbn]
          by_cases hbc : b = comp
          · rw [if_pos hbc]
            exact mem_of_mem_sadd_left _ _ _ (hbc ▸ hrec)
          · rw [if_neg hbc]
            exact hrec
  · intro a b hb
    rw [hlook] at hb
    by_cases han : a = n
    · rw [if_pos han] at hb
      rcases (mem_sadd _ _ _).mp hb with hb2 | hb2
      · exact han ▸ hend n b hb2
      · exact Or.inr ⟨han ▸ hn, hb2 ▸ hcomp⟩
    · rw [if_neg han] at hb
      by_cases hac : a = comp
      · rw [if_pos hac] at hb
        rcases (mem_sadd _ _ _).mp hb with hb2 | hb2
        · exact hac ▸ hend comp b hb2
        · exact Or.inl ⟨hac ▸ hcomp, hb2 ▸ hn⟩
      · rw [if_neg hac] at hb
        exact hend a b hb

/-- All connections of one net preserve the adjacency keys, symmetry and
endpoint typing, once the net node is already keyed. -/
theorem conns_fold_inv (n : String) (ck done : List String)
    (hn : n ∈ done) (hnck : ¬ n ∈ ck) (hdisj : ∀ k ∈ done, ¬ k ∈ ck) :
    ∀ (cs : List Conn) (g : CircuitGraph),
    (∀ c ∈ cs, c.component ∈ ck) →
    dkeys g.adjacency_list = ck ++ done →
    symAdj g.adjacency_list →
    endpointsAdj g.adjacency_list ck done →
    dkeys (cs.foldl (addConn n) g).adjacency_list = ck ++ done ∧
    symAdj (cs.foldl (addConn n) g).adjacency_list ∧
    endpointsAdj (cs.foldl (addConn n) g).adjacency_list ck done := by
  intro cs
  induction cs with
  | nil => exact fun g _ h1 h2 h3 => ⟨h1, h2, h3⟩
  | cons c rest ih =>
    intro g hcs h1 h2 h3
    have hc := hcs c (List.mem_cons_self _ _)
    have hstep := conn_step_inv g.adjacency_list c.component n ck done hc hn
      hnck hdisj h1 h2 h3
    rw [List.foldl_cons]
    exact ih (addConn n g c) (fun c2 hc2 => hcs c2 (List.mem_cons_of_mem _ hc2))
      hstep.1 hstep.2.1 hstep.2.2

/-- Processing the nets, one `buildGraphStep` at a time, extends the key
lists by the processed net names in order and preserves symmetry and
endpoint typing of adjacency. -/
theorem nets_fold_inv (ck : List String) :
    ∀ (l : List (String × List Conn)) (g : CircuitGraph) (done : List String),
    (done ++ l.map Prod.fst).Nodup →
    (∀ p ∈ l, ¬ p.1 ∈ ck) →
    (∀ k ∈ done, ¬ k ∈ ck) →
    (∀ p ∈ l, ∀ c ∈ p.2, c.component ∈ ck) →
    dkeys g.nodes = ck ++ done →
    dkeys g.adjacency_list = ck ++ done →
    symAdj g.adjacency_list →
    endpointsAdj g.adjacency_list ck done →
    dkeys (l.foldl buildGraphStep g).nodes = ck ++ (done ++ l.map Prod.fst) ∧
    dkeys (l.foldl buildGraphStep g).adjacency_list = ck ++ (done ++ l.map Prod.fst) ∧
    symAdj (l.foldl buildGraphStep g).adjacency_list ∧
    endpointsAdj (l.foldl buildGraphStep g).adjacency_list ck (done ++ l.map Prod.fst) := by
  intro l
  induction l with
  | nil =>
    intro g done _ _ _ _ h5 h6 h7 h8
    simpa using ⟨h5, h6, h7, h8⟩
  | cons p rest ih =>
    intro g done hnd hpck hdck hpconn h5 h6 h7 h8
    obtain ⟨n, cs⟩ := p
    have hmapcons : (n, cs) :: rest = ((n, cs) :: rest) := rfl
    have hndone : ¬ n ∈ done := by
      intro h9
      exact List.disjoint_of_nodup_append hnd h9 (by simp)
    have hnck : ¬ n ∈ ck := hpck (n, cs) (List.mem_cons_self _ _)
    have hnfresh : ¬ n ∈ dkeys g.nodes := by
      rw [h5]
      intro h9
      rcases List.mem_append.mp h9 with h10 | h10
      · exact hnck h10
      · exact hndone h10
    have hnfresh2 : ¬ n ∈ dkeys g.adjacency_list := by
      rw [h6]
      intro h9
      rcases List.mem_append.mp h9 with h10 | h10
      · exact hnck h10
      · exact hndone h10
    have hnodesmem : ¬ dmem g.nodes n = true := by
      rw [dmem_iff_mem_dkeys]
      exact hnfresh
    have hadjmem : ¬ dmem g.adjacency_list n = true := by
      rw [dmem_iff_mem_dkeys]
      exact hnfresh2
    have hkeys1n : dkeys (dset g.nodes n (⟨NType.net, []⟩ : NodeData)) =
        ck ++ (done ++ [n]) := by
      rw [dkeys_dset_of_not_mem _ _ _ hnodesmem, h5, List.append_assoc]
    have hkeys1a : dkeys (dset g.adjacency_list n []) = ck ++ (done ++ [n]) := by
      rw [dkeys_dset_of_not_mem _ _ _ hadjmem, h6, List.append_assoc]
    have hb_ne_n : ∀ a b, b ∈ aget g.adjacency_list a → ¬ b = n := by
      intro a b hb hbn
      rcases h8 a b hb with ⟨_, h10⟩ | ⟨_, h10⟩
      · exact hndone (hbn ▸ h10)
      · exact hnck (hbn ▸ h10)
    have hsym1 : symAdj (dset g.adjacency_list n []) := by
      intro a b hb
      by_cases han : a = n
      · rw [han, aget_dset_self] at hb
        cases hb
      · rw [aget_dset_ne _ _ _ _ han] at hb
        rw [aget_dset_ne _ _ _ _ (hb_ne_n a b hb)]
        exact h7 a b hb
    have hend1 : endpointsAdj (dset g.adjacency_list n []) ck (done ++ [n]) := by
      intro a b hb
      by_cases han : a = n
      · rw [han, aget_dset_self] at hb
        cases hb
      · rw [aget_dset_ne _ _ _ _ han] at hb
        rcases h8 a b hb with ⟨h10, h11⟩ | ⟨h10, h11⟩
        · exact Or.inl ⟨h10, List.mem_append_left _ h11⟩
        · exact Or.inr ⟨List.mem_append_left _ h10, h11⟩
    have hinner := conns_fold_inv n ck (done ++ [n])
      (List.mem_append_right _ (List.mem_cons_self _ _)) hnck
      (by
        intro k hk
        rcases List.mem_append.mp hk with h10 | h10
        · exact hdck k h10
        · rw [List.mem_singleton.mp h10]
          exact hnck)
      cs
      ({ g with
          nodes := dset g.nodes n ⟨NType.net, []⟩
          adjacency_list := dset g.adjacency_list n [] })
      (hpconn (n, cs) (List.mem_cons_self _ _)) hkeys1a hsym1 hend1
    have hstep_nodes : (buildGraphStep g (n, cs)).nodes =
        dset g.nodes n ⟨NType.net, []⟩ := by
      unfold buildGraphStep
      rw [foldl_addConn_nodes]
    have hrest := ih (buildGraphStep g (n, cs)) (done ++ [n])
      (by
        have h12 : done ++ (n, cs).1 :: rest.map Prod.fst =
            (done ++ [n]) ++ rest.map Prod.fst := by
          simp
        rw [List.map_cons] at hnd
        exact h12 ▸ hnd)
      (fun p2 hp2 => hpck p2 (List.mem_cons_of_mem _ hp2))
      (by
        intro k hk
        rcases List.mem_append.mp hk with h10 | h10
        · exact hdck k h10
        · rw [List.mem_singleton.mp h10]
          exact hnck)
      (fun p2 hp2 => hpconn p2 (List.mem_cons_of_mem _ hp2))
      (by rw [hstep_nodes]; exact hkeys1n)
      hinner.1 hinner.2.1 hinner.2.2
    rw [List.foldl_cons]
    refine ⟨?_, ?_, hrest.2.2.1, ?_⟩
    · rw [hrest.1]
      simp
    · rw [hrest.2.1]
      simp
    · have h13 : (done ++ [n]) ++ rest.map Prod.fst =
          done ++ ((n, cs) :: rest).map Prod.fst := by
        simp
      exact h13 ▸ hrest.2.2.2

/-- The component pass keeps nodes and adjacency keyed identically by
the declared component references, with all adjacency sets empty. -/
theorem comps_fold_inv :
    ∀ (l : List (String × Attrs)) (g : CircuitGraph),
    (l.map Prod.fst).Nodup →
    (∀ k ∈ l.map Prod.fst, ¬ k ∈ dkeys g.nodes) →
    dkeys g.adjacency_list = dkeys g.nodes →
    (∀ a, aget g.adjacency_list a = []) →
    dkeys ((l.foldl (fun (g : CircuitGraph) (p : String × Attrs) =>
        { g with
          nodes := dset g.nodes p.1 ⟨NType.component, p.2⟩
          adjacency_list := dset g.adjacency_list p.1 [] }) g).nodes) =
      dkeys g.nodes ++ l.map Prod.fst ∧
    dkeys ((l.foldl (fun (g : CircuitGraph) (p : String × Attrs) =>
        { g with
          nodes := dset g.nodes p.1 ⟨NType.component, p.2⟩
          adjacency_list := dset g.adjacency_list p.1 [] }) g).adjacency_list) =
      dkeys g.nodes ++ l.map Prod.fst ∧
    (∀ a, aget ((l.foldl (fun (g : CircuitGraph) (p : String × Attrs) =>
        { g with
          nodes := dset g.nodes p.1 ⟨NType.component, p.2⟩
          adjacency_list := dset g.adjacency_list p.1 [] }) g).adjacency_list) a = []) := by
  intro l
  induction l with
  | nil =>
    intro g _ _ h3 h4
    exact ⟨by simp, by simp [h3], h4⟩
  | cons p rest ih =>
    intro g hnd hfresh h3 h4
    have hpfresh : ¬ p.1 ∈ dkeys g.nodes :=
      hfresh p.1 (by simp)
    have hpmem : ¬ dmem g.nodes p.1 = true := by
      rw [dmem_iff_mem_dkeys]
      exact hpfresh
    have hpmem2 : ¬ dmem g.adjacency_list p.1 = true := by
      rw [dmem_iff_mem_dkeys, h3]
      exact hpfresh
    have hrest := ih
      ({ g with
          nodes := dset g.nodes p.1 ⟨NType.component, p.2⟩
          adjacency_list := dset g.adjacency_list p.1 [] })
      (by
        rw [List.map_cons] at hnd
        exact hnd.of_cons)
      (by
        intro k hk
        simp only
        rw [dkeys_dset_of_not_mem _ _ _ hpmem]
        intro h5
        rcases List.mem_append.mp h5 with h6 | h6
        · exact hfresh k (by simp [hk]) h6
        · rw [List.mem_singleton.mp h6] at hk
          rw [List.map_cons] at hnd
          exact (List.nodup_cons.mp hnd).1 hk)
      (by
        simp only
        rw [dkeys_dset_of_not_mem _ _ _ hpmem, dkeys_dset_of_not_mem _ _ _ hpmem2, h3])
      (by
        intro a
        simp only
        by_cases ha : a = p.1
        · rw [ha, aget_dset_self]
        · rw [aget_dset_ne _ _ _ _ ha]
          exact h4 a)
    rw [List.foldl_cons]
    refine ⟨?_, ?_, hrest.2.2⟩
    · rw [hrest.1]
      simp only
      rw [dkeys_dset_of_not_mem _ _ _ hpmem]
      simp
    · rw [hrest.2.1]
      simp only
      rw [dkeys_dset_of_not_mem _ _ _ hpmem]
      simp

/-- After the component pass, nodes and adjacency are keyed by the
declared component references and every adjacency set is empty. -/
theorem compStage_props (nl : Netlist) (ps : List String)
    (hck : (dkeys nl.components).Nodup) :
    dkeys (compStage nl ps).nodes = dkeys nl.components ∧
    dkeys (compStage nl ps).adjacency_list = dkeys nl.components ∧
    (∀ a, aget (compStage nl ps).adjacency_list a = []) := by
  have h := comps_fold_inv nl.components
    { nodes := [], edges := [], adjacency_list := [], netlist_data := nl,
      power_symbols := ps }
    hck (by intro k _ h2; cases h2) rfl (fun a => rfl)
  unfold compStage
  simpa using h

theorem countComp_append (g : CircuitGraph) (p1 p2 : List String) :
    countComp g (p1 ++ p2) = countComp g p1 + countComp g p2 := by
  simp [countComp, List.filter_append]

theorem head?_append_singleton (p : List String) (a s : String)
    (h : p.head? = some s) : (p ++ [a]).head? = some s := by
  cases p with
  | nil => cases h
  | cons x t =>
    simp at h
    simp [h]

/-- One step of the `find_path` neighbor loop preserves the queue
invariant, and an early successful return carries a path from the search
start to the target that walks adjacency without repetition, whose
reported length counts its components (minus the start contribution) and
exceeds the dequeued counter by at most one. -/
theorem fpExpand_sound (g : CircuitGraph) (end_node : String) (ip : Bool)
    (current : String) (path : List String) (cc : Nat) (start : String)
    (h1 : ¬ path = []) (h2 : path.head? = some start)
    (h3 : path.getLast? = some current)
    (h4 : List.Chain' (fun a b => b ∈ adjOf g a) path)
    (h5 : path.Nodup)
    (h7 : countComp g path = cc + countComp g [start]) :
    ∀ (nbrs : List String) (q : List (String × List String × Nat))
      (visited : List String),
    (∀ nb ∈ nbrs, nb ∈ adjOf g current) →
    fpQInv g start visited q →
    (∀ x ∈ path, x ∈ visited) →
    (∀ res, fpExpand g end_node ip current path cc nbrs q visited =
        Sum.inl (some res) →
      ∀ p len det, res = FPResult.ok p len det →
        ¬ p = [] ∧ p.head? = some start ∧ p.getLast? = some end_node ∧
        List.Chain' (fun a b => b ∈ adjOf g a) p ∧ p.Nodup ∧
        countComp g p = len + countComp g [start] ∧ len ≤ cc + 1) ∧
    (∀ q2 v2, fpExpand g end_node ip current path cc nbrs q visited =
        Sum.inr (q2, v2) → fpQInv g start v2 q2) := by
  intro nbrs
  induction nbrs with
  | nil =>
    intro q visited _ hq _
    constructor
    · intro res hres
      rw [fpExpand] at hres
      cases hres
    · intro q2 v2 hres
      rw [fpExpand] at hres
      injection hres with hres2
      injection hres2 with ha hb
      rw [← ha, ← hb]
      exact hq
  | cons nb rest ih =>
    intro q visited hnbrs hq hpathv
    have hnbadj : nb ∈ adjOf g current := hnbrs nb (List.mem_cons_self _ _)
    have hrest : ∀ x ∈ rest, x ∈ adjOf g current :=
      fun x hx => hnbrs x (List.mem_cons_of_mem _ hx)
    by_cases hv : nb ∈ visited
    · rw [fpExpand]
      simp only [if_pos hv]
      exact ih q visited hrest hq hpathv
    · rcases hnd : dget? g.nodes nb with _ | nd
      · constructor
        · intro res hres
          rw [fpExpand] at hres
          simp only [if_neg hv, hnd] at hres
          cases hres
        · intro q2 v2 hres
          rw [fpExpand] at hres
          simp only [if_neg hv, hnd] at hres
          cases hres
      · have hskip : ∀ sk,
            (if ip then
              if nd.ntype = NType.net ∧ nb ∈ g.power_symbols then some true
              else is_power_edge g current nb
            else some false) = sk →
            (fpExpand g end_node ip current path cc (nb :: rest) q visited =
              match sk with
              | none => Sum.inl none
              | some true => fpExpand g end_node ip current path cc rest q visited
              | some false =>
                let new_comp_count :=
                  if nd.ntype = NType.component then cc + 1 else cc
                let new_path := path ++ [nb]
                if nb = end_node then
                  match pathDetails g new_path with
                  | none => Sum.inl none
                  | some details =>
                    Sum.inl (some (FPResult.ok new_path new_comp_count details))
                else
                  fpExpand g end_node ip current path cc rest
                    (q ++ [(nb, new_path, new_comp_count)]) (visited ++ [nb])) := by
          intro sk hsk
          rw [fpExpand]
          simp only [if_neg hv, hnd, hsk]
        rcases hsk : (if ip then
            if nd.ntype = NType.net ∧ nb ∈ g.power_symbols then some true
            else is_power_edge g current nb
          else some false) with _ | b
        · have heq := hskip none hsk
          constructor
          · intro res hres
            rw [heq] at hres
            cases hres
          · intro q2 v2 hres
            rw [heq] at hres
            cases hres
        · cases b with
          | true =>
            have heq := hskip true hsk
            rw [heq]
            exact ih q visited hrest hq hpathv
          | false =>
            have heq := hskip false hsk
            have hbit : countComp g [nb] =
                (if nd.ntype = NType.component then 1 else 0) := by
              by_cases hcomp : nd.ntype = NType.component
              · simp [countComp, hnd, hcomp]
              · simp [countComp, hnd, hcomp]
            have hnotinpath : ¬ nb ∈ path := fun h8 => hv (hpathv nb h8)
            have hnewpath_props :
                ¬ path ++ [nb] = [] ∧ (path ++ [nb]).head? = some start ∧
                (path ++ [nb]).getLast? = some nb ∧
                List.Chain' (fun a b => b ∈ adjOf g a) (path ++ [nb]) ∧
                (path ++ [nb]).Nodup ∧
                countComp g (path ++ [nb]) =
                  (if nd.ntype = NType.component then cc + 1 else cc) +
                    countComp g [start] := by
              refine ⟨by simp, head?_append_singleton path nb start h2,
                List.getLast?_concat path, ?_, ?_, ?_⟩
              · rw [List.chain'_append]
                refine ⟨h4, List.chain'_singleton nb, ?_⟩
                intro x hx y hy
                rw [h3] at hx
                injection hx with hx2
                injection hy with hy2
                rw [← hx2, ← hy2]
                exact hnbadj
              · rw [List.nodup_append]
                exact ⟨h5, List.nodup_singleton nb,
                  fun a ha hb => hnotinpath ((List.mem_singleton.mp hb) ▸ ha)⟩
              · rw [countComp_append, h7, hbit]
                by_cases hcomp : nd.ntype = NType.component
                · simp [hcomp]
                  omega
                · simp [hcomp]
            by_cases hend : nb = end_node
            · rw [heq]
              simp only [if_pos hend]
              rcases hdet : pathDetails g (path ++ [nb]) with _ | details
              · constructor
                · intro res hres
                  simp only [hdet] at hres
                  cases hres
                · intro q2 v2 hres
                  simp only [hdet] at hres
                  cases hres
              · constructor
                · intro res hres
                  simp only [hdet] at hres
                  injection hres with hres2
                  injection hres2 with hres3
                  intro p len det hres4
                  rw [← hres3] at hres4
                  injection hres4 with hp hlen hdet2
                  subst hp
                  subst hlen
                  refine ⟨hnewpath_props.1, hnewpath_props.2.1,
                    hend ▸ hnewpath_props.2.2.1, hnewpath_props.2.2.2.1,
                    hnewpath_props.2.2.2.2.1, hnewpath_props.2.2.2.2.2, ?_⟩
                  by_cases hcomp : nd.ntype = NType.component
                  · simp [hcomp]
                  · simp [hcomp]
                · intro q2 v2 hres
                  simp only [hdet] at hres
                  cases hres
            · rw [heq]
              simp only [if_neg hend]
              have hq2 : fpQInv g start (visited ++ [nb])
                  (q ++ [(nb, path ++ [nb],
                    if nd.ntype = NType.component then cc + 1 else cc)]) := by
                obtain ⟨hstart, hentries⟩ := hq
                refine ⟨List.mem_append_left _ hstart, ?_⟩
                intro e he
                rcases List.mem_append.mp he with he2 | he2
                · obtain ⟨e1, e2, e3, e4, e5, e6, e7⟩ := hentries e he2
                  exact ⟨e1, e2, e3, e4, e5,
                    fun x hx => List.mem_append_left _ (e6 x hx), e7⟩
                · rw [List.mem_singleton.mp he2]
                  refine ⟨hnewpath_props.1, hnewpath_props.2.1,
                    hnewpath_props.2.2.1, hnewpath_props.2.2.2.1,
                    hnewpath_props.2.2.2.2.1, ?_, hnewpath_props.2.2.2.2.2⟩
                  intro x hx
                  rcases List.mem_append.mp hx with hx2 | hx2
                  · exact List.mem_append_left _ (hpathv x hx2)
                  · exact List.mem_append_right _ hx2
              exact ih (q ++ [(nb, path ++ [nb],
                  if nd.ntype = NType.component then cc + 1 else cc)])
                (visited ++ [nb]) hrest hq2
                (fun x hx => List.mem_append_left _ (hpathv x hx))

/-- Soundness of the `find_path` breadth-first loop: any successful
result is a duplicate-free adjacency walk from the search start to the
target whose reported length counts its component nodes minus the start
contribution and never exceeds the depth bound. -/
theorem fpLoop_sound (g : CircuitGraph) (start end_node : String) (ip : Bool)
    (maxd : Nat) :
    ∀ (fuel : Nat) (q : List (String × List String × Nat)) (visited : List String)
      (p : List String) (len : Nat) (det : List Detail),
    fpQInv g start visited q →
    fpLoop g end_node ip maxd fuel q visited = some (FPResult.ok p len det) →
    ¬ p = [] ∧ p.head? = some start ∧ p.getLast? = some end_node ∧
    List.Chain' (fun a b => b ∈ adjOf g a) p ∧ p.Nodup ∧
    countComp g p = len + countComp g [start] ∧ len ≤ maxd := by
  intro fuel
  induction fuel with
  | zero =>
    intro q visited p len det _ hrun
    rw [fpLoop] at hrun
    injection hrun with hrun2
    cases hrun2
  | succ fuel ih =>
    intro q visited p len det hq hrun
    match q with
    | [] =>
      rw [fpLoop] at hrun
      injection hrun with hrun2
      cases hrun2
    | (current, path, cc) :: qrest =>
      rw [fpLoop] at hrun
      by_cases hcc : maxd ≤ cc
      · rw [if_pos hcc] at hrun
        exact ih qrest visited p len det
          ⟨hq.1, fun e he => hq.2 e (List.mem_cons_of_mem _ he)⟩ hrun
      · rw [if_neg hcc] at hrun
        obtain ⟨e1, e2, e3, e4, e5, e6, e7⟩ :=
          hq.2 (current, path, cc) (List.mem_cons_self _ _)
        have hexp := fpExpand_sound g end_node ip current path cc start
          e1 e2 e3 e4 e5 e7 (adjOf g current) qrest visited
          (fun nb hnb => hnb)
          ⟨hq.1, fun e he => hq.2 e (List.mem_cons_of_mem _ he)⟩ e6
        rcases hm : fpExpand g end_node ip current path cc (adjOf g current)
            qrest visited with r | q2v2
        · rw [hm] at hrun
          match r, hrun with
          | some res, hrun =>
            injection hrun with hrun2
            obtain ⟨p1, p2, p3, p4, p5, p6, p7⟩ :=
              hexp.1 res hm p len det hrun2
            exact ⟨p1, p2, p3, p4, p5, p6, by omega⟩
        · rw [hm] at hrun
          obtain ⟨q2, v2⟩ := q2v2
          exact ih q2 v2 p len det (hexp.2 q2 v2 hm) hrun

theorem dget?_mem {κ α : Type} [DecidableEq κ] (d : List (κ × α)) (k : κ) (v : α)
    (h : dget? d k = some v) : (k, v) ∈ d := by
  induction d with
  | nil => cases h
  | cons p rest ih =>
    obtain ⟨pk, pv⟩ := p
    by_cases h2 : pk = k
    · rw [dget?, if_pos h2] at h
      injection h with h3
      rw [h2, h3]
      exact List.mem_cons_self _ _
    · rw [dget?, if_neg h2] at h
      exact List.mem_cons_of_mem _ (ih h)

theorem wfGraph_entry (g : CircuitGraph) (hw : wfGraph g = true) (a : String)
    (l : List String) (ha : dget? g.adjacency_list a = some l) :
    ∃ na, dget? g.nodes a = some na ∧
      ∀ nb ∈ l, dmem g.adjacency_list nb = true ∧
        ∃ nn, dget? g.nodes nb = some nn ∧ ¬ nn.ntype = na.ntype := by
  have hmem := dget?_mem _ _ _ ha
  rw [wfGraph, List.all_eq_true] at hw
  have h2 := hw (a, l) hmem
  simp only at h2
  rcases hna : dget? g.nodes a with _ | na
  · rw [hna] at h2
    cases h2
  · rw [hna] at h2
    refine ⟨na, rfl, ?_⟩
    rw [List.all_eq_true] at h2
    intro nb hnb
    have h3 := h2 nb hnb
    rcases hnn : dget? g.nodes nb with _ | nn
    · rw [hnn] at h3
      simp at h3
    · rw [hnn] at h3
      simp at h3
      exact ⟨h3.1, nn, rfl, h3.2⟩

theorem wfGraph_pair (g : CircuitGraph) (hw : wfGraph g = true) (a nb : String)
    (hnb : nb ∈ aget g.adjacency_list a) :
    ∃ na nn, dget? g.nodes a = some na ∧ dget? g.nodes nb = some nn ∧
      dmem g.adjacency_list nb = true ∧ ¬ nn.ntype = na.ntype := by
  rcases ha : dget? g.adjacency_list a with _ | l
  · rw [aget, ha] at hnb
    cases hnb
  · rw [aget, ha] at hnb
    simp at hnb
    obtain ⟨na, hna, hall⟩ := wfGraph_entry g hw a l ha
    obtain ⟨hm, nn, hnn, hne⟩ := hall nb hnb
    exact ⟨na, nn, hna, hnn, hm, hne⟩

theorem gnExpand_acc_grows (g : CircuitGraph) (ip : Bool) (cur : String) (d : Nat) :
    ∀ (nbrs : List String) (q : List (String × Nat)) (v : List String)
      (acc : List (Nat × String)) (q2 : List (String × Nat)) (v2 : List String)
      (acc2 : List (Nat × String)),
    gnExpand g ip cur d nbrs q v acc = some (q2, v2, acc2) →
    ∃ ad, acc2 = acc ++ ad := by
  intro nbrs
  induction nbrs with
  | nil =>
    intro q v acc q2 v2 acc2 h
    rw [gnExpand] at h
    injection h with h2
    injection h2 with ha hrest
    injection hrest with hb hc
    exact ⟨[], by simp [← hc]⟩
  | cons nb rest ih =>
    intro q v acc q2 v2 acc2 h
    rw [gnExpand] at h
    by_cases hv : nb ∈ v
    · rw [if_pos hv] at h
      exact ih q v acc q2 v2 acc2 h
    · rcases hnd : dget? g.nodes nb with _ | nd
      · simp only [if_neg hv, hnd] at h
        cases h
      · rcases hsk : (if ip then
            if nd.ntype = NType.net ∧ nb ∈ g.power_symbols then some true
            else is_power_edge g cur nb
          else some false) with _ | b
        · simp only [if_neg hv, hnd, hsk] at h
          cases h
        · cases b with
          | true =>
            simp only [if_neg hv, hnd, hsk] at h
            exact ih _ _ _ _ _ _ h
          | false =>
            simp only [if_neg hv, hnd, hsk] at h
            by_cases hcomp : nd.ntype = NType.component ∨
                (¬ ip ∧ nb ∈ g.power_symbols)
            · rw [if_pos hcomp] at h
              obtain ⟨ad, had⟩ := ih _ _ _ _ _ _ h
              exact ⟨(d + 1, nb) :: ad, by simp [had]⟩
            · rw [if_neg hcomp] at h
              exact ih _ _ _ _ _ _ h

theorem gnLoop_acc_grows (g : CircuitGraph) (ip : Bool) (r : Nat) :
    ∀ (fuel : Nat) (q : List (String × Nat)) (v : List String)
      (acc res : List (Nat × String)),
    gnLoop g ip r fuel q v acc = some res →
    ∃ tail, res = acc ++ tail := by
  intro fuel
  induction fuel with
  | zero =>
    intro q v acc res h
    rw [gnLoop] at h
    injection h with h2
    exact ⟨[], by simp [← h2]⟩
  | succ fuel ih =>
    intro q v acc res h
    match q with
    | [] =>
      rw [gnLoop] at h
      injection h with h2
      exact ⟨[], by simp [← h2]⟩
    | (cur, d) :: qrest =>
      rw [gnLoop] at h
      by_cases hd : r ≤ d
      · rw [if_pos hd] at h
        exact ih qrest v acc res h
      · rw [if_neg hd] at h
        rcases hexp : gnExpand g ip cur d (adjOf g cur) qrest v acc with _ | q2v2
        · rw [hexp] at h
          cases h
        · rw [hexp] at h
          obtain ⟨q2, v2, acc2⟩ := q2v2
          obtain ⟨tail2, ht2⟩ := ih q2 v2 acc2 res h
          obtain ⟨ad, had⟩ := gnExpand_acc_grows g ip cur d (adjOf g cur)
            qrest v acc q2 v2 acc2 hexp
          exact ⟨ad ++ tail2, by rw [ht2, had, List.append_assoc]⟩

theorem gnLoop_dead (g : CircuitGraph) (ip : Bool) (r : Nat) :
    ∀ (fuel : Nat) (q : List (String × Nat)) (v : List String)
      (acc : List (Nat × String)),
    (∀ e ∈ q, r ≤ e.2) →
    gnLoop g ip r fuel q v acc = some acc := by
  intro fuel
  induction fuel with
  | zero =>
    intro q v acc _
    rw [gnLoop]
  | succ fuel ih =>
    intro q v acc hq
    match q with
    | [] => rw [gnLoop]
    | (cur, d) :: qrest =>
      rw [gnLoop, if_pos (hq (cur, d) (List.mem_cons_self _ _))]
      exact ih qrest v acc (fun e he => hq e (List.mem_cons_of_mem _ he))

/-- In a wellformed graph, the neighbor loop of `get_neighborhood`
appends to the queue only entries of the next breadth-first rank, each
carrying a node record and an adjacency key. -/
theorem gnExpand_phase (g : CircuitGraph) (ip : Bool) (cur : String) (d : Nat)
    (nc : NodeData) (hw : wfGraph g = true)
    (hcur : dget? g.nodes cur = some nc) :
    ∀ (nbrs : List String) (q : List (String × Nat)) (v : List String)
      (acc : List (Nat × String)) (q2 : List (String × Nat)) (v2 : List String)
      (acc2 : List (Nat × String)),
    (∀ nb ∈ nbrs, nb ∈ aget g.adjacency_list cur) →
    gnExpand g ip cur d nbrs q v acc = some (q2, v2, acc2) →
    ∃ qd, q2 = q ++ qd ∧
      ∀ e ∈ qd, (dget? g.nodes e.1).isSome = true ∧
        dmem g.adjacency_list e.1 = true ∧
        phaseOf g e = phaseOf g (cur, d) + 1 := by
  intro nbrs
  induction nbrs with
  | nil =>
    intro q v acc q2 v2 acc2 _ h
    rw [gnExpand] at h
    injection h with h2
    injection h2 with ha hrest
    exact ⟨[], by simp [← ha], fun e he => absurd he (List.not_mem_nil e)⟩
  | cons nb rest ih =>
    intro q v acc q2 v2 acc2 hnbrs h
    have hnbadj : nb ∈ aget g.adjacency_list cur := hnbrs nb (List.mem_cons_self _ _)
    have hrest : ∀ x ∈ rest, x ∈ aget g.adjacency_list cur :=
      fun x hx => hnbrs x (List.mem_cons_of_mem _ hx)
    obtain ⟨na, nn, hna, hnn, hmemnb, hne⟩ := wfGraph_pair g hw cur nb hnbadj
    rw [hcur] at hna
    injection hna with hna2
    subst hna2
    rw [gnExpand] at h
    by_cases hv : nb ∈ v
    · rw [if_pos hv] at h
      exact ih q v acc q2 v2 acc2 hrest h
    · rcases hsk : (if ip then
          if nn.ntype = NType.net ∧ nb ∈ g.power_symbols then some true
          else is_power_edge g cur nb
        else some false) with _ | b
      · simp only [if_neg hv, hnn, hsk] at h
        cases h
      · cases b with
        | true =>
          simp only [if_neg hv, hnn, hsk] at h
          exact ih _ _ _ _ _ _ hrest h
        | false =>
          simp only [if_neg hv, hnn, hsk] at h
          have hphase : phaseOf g
              (nb, if nn.ntype = NType.component then d + 1 else d) =
              phaseOf g (cur, d) + 1 := by
            rw [phaseOf, phaseOf]
            simp only [hcur, hnn]
            cases hty : nn.ntype with
            | component =>
              cases hty2 : nc.ntype with
              | component =>
                rw [hty, hty2] at hne
                exact absurd rfl hne
              | net =>
                simp
                omega
            | net =>
              cases hty2 : nc.ntype with
              | component => simp
              | net =>
                rw [hty, hty2] at hne
                exact absurd rfl hne
          have hprops : (dget? g.nodes nb).isSome = true ∧
              dmem g.adjacency_list nb = true ∧
              phaseOf g (nb, if nn.ntype = NType.component then d + 1 else d) =
                phaseOf g (cur, d) + 1 := by
            rw [hnn]
            exact ⟨rfl, hmemnb, hphase⟩
          by_cases hcomp : nn.ntype = NType.component ∨
              (¬ ip ∧ nb ∈ g.power_symbols)
          · rw [if_pos hcomp] at h
            obtain ⟨qd, hqd, hqall⟩ := ih _ _ _ _ _ _ hrest h
            refine ⟨(nb, if nn.ntype = NType.component then d + 1 else d) :: qd,
              by simp [hqd], ?_⟩
            intro e he
            rcases List.mem_cons.mp he with he2 | he2
            · rw [he2]
              exact hprops
            · exact hqall e he2
          · rw [if_neg hcomp] at h
            obtain ⟨qd, hqd, hqall⟩ := ih _ _ _ _ _ _ hrest h
            refine ⟨(nb, if nn.ntype = NType.component then d + 1 else d) :: qd,
              by simp [hqd], ?_⟩
            intro e he
            rcases List.mem_cons.mp he with he2 | he2
            · rw [he2]
              exact hprops
            · exact hqall e he2

theorem phaseOf_bits (g : CircuitGraph) (e : String × Nat)
    (h : (dget? g.nodes e.1).isSome = true) :
    ∃ b, b ≤ 1 ∧ phaseOf g e = 2 * e.2 + b := by
  rcases hnd : dget? g.nodes e.1 with _ | nd
  · rw [hnd] at h
    cases h
  · rw [phaseOf, hnd]
    by_cases hb : nd.ntype = NType.net
    · exact ⟨1, by omega, by simp [hb]⟩
    · exact ⟨0, by omega, by simp [hb]⟩

/-- Dequeuing the head and appending the next-rank entries produced by
its expansion preserves the `get_neighborhood` queue invariant. -/
theorem gnQInv_step (g : CircuitGraph) (cur : String) (d : Nat)
    (qrest qd : List (String × Nat))
    (hinv : gnQInv g ((cur, d) :: qrest))
    (hqd : ∀ e ∈ qd, (dget? g.nodes e.1).isSome = true ∧
      dmem g.adjacency_list e.1 = true ∧
      phaseOf g e = phaseOf g (cur, d) + 1) :
    gnQInv g (qrest ++ qd) := by
  obtain ⟨hnodes, hpair, hwin⟩ := hinv
  have hhead := List.pairwise_cons.mp hpair
  refine ⟨?_, ?_, ?_⟩
  · intro e he
    rcases List.mem_append.mp he with he2 | he2
    · exact hnodes e (List.mem_cons_of_mem _ he2)
    · exact ⟨(hqd e he2).1, (hqd e he2).2.1⟩
  · rw [List.pairwise_append]
    refine ⟨hhead.2, ?_, ?_⟩
    · refine List.pairwise_of_forall_mem_list ?_
      intro a ha b hb
      rw [(hqd a ha).2.2, (hqd b hb).2.2]
    · intro a ha b hb
      rw [(hqd b hb).2.2]
      have h2 := hwin (cur, d) (List.mem_cons_self _ _) a (List.mem_cons_of_mem _ ha)
      omega
  · intro a ha b hb
    rcases List.mem_append.mp ha with ha2 | ha2 <;>
      rcases List.mem_append.mp hb with hb2 | hb2
    · exact hwin a (List.mem_cons_of_mem _ ha2) b (List.mem_cons_of_mem _ hb2)
    · rw [(hqd b hb2).2.2]
      have h2 := hhead.1 a ha2
      omega
    · rw [(hqd a ha2).2.2]
      have h2 := hwin (cur, d) (List.mem_cons_self _ _) b (List.mem_cons_of_mem _ hb2)
      omega
    · rw [(hqd a ha2).2.2, (hqd b hb2).2.2]
      omega

/-- Monotonicity of the `get_neighborhood` loop in the radius: with the
same starting state and fuel, the member list collected under a smaller
radius is a prefix of the list collected under a larger one.  The loop
dequeues entries in nondecreasing breadth-first rank, so once an entry at
or beyond the smaller radius is reached the smaller run collects nothing
further, while up to that point both runs behave identically. -/
theorem gnLoop_mono (g : CircuitGraph) (ip : Bool) (hw : wfGraph g = true) :
    ∀ (fuel r1 r2 : Nat) (q : List (String × Nat)) (v : List String)
      (acc res1 res2 : List (Nat × String)),
    r1 ≤ r2 → gnQInv g q →
    gnLoop g ip r1 fuel q v acc = some res1 →
    gnLoop g ip r2 fuel q v acc = some res2 →
    ∃ tail, res2 = res1 ++ tail := by
  intro fuel
  induction fuel with
  | zero =>
    intro r1 r2 q v acc res1 res2 _ _ h1 h2
    rw [gnLoop] at h1 h2
    injection h1 with h1b
    injection h2 with h2b
    exact ⟨[], by rw [← h1b, ← h2b]; simp⟩
  | succ fuel ih =>
    intro r1 r2 q v acc res1 res2 hr hinv h1 h2
    match q with
    | [] =>
      rw [gnLoop] at h1 h2
      injection h1 with h1b
      injection h2 with h2b
      exact ⟨[], by rw [← h1b, ← h2b]; simp⟩
    | (cur, d) :: qrest =>
      have hinvrest : gnQInv g qrest := by
        obtain ⟨hnodes, hpair, hwin⟩ := hinv
        exact ⟨fun e he => hnodes e (List.mem_cons_of_mem _ he),
          hpair.of_cons,
          fun a ha b hb => hwin a (List.mem_cons_of_mem _ ha)
            b (List.mem_cons_of_mem _ hb)⟩
      rw [gnLoop] at h1 h2
      by_cases hr2 : r2 ≤ d
      · have hr1 : r1 ≤ d := le_trans hr hr2
        rw [if_pos hr1] at h1
        rw [if_pos hr2] at h2
        exact ih r1 r2 qrest v acc res1 res2 hr hinvrest h1 h2
      · by_cases hr1 : r1 ≤ d
        · rw [if_pos hr1] at h1
          rw [if_neg hr2] at h2
          have hdead : ∀ e ∈ qrest, r1 ≤ e.2 := by
            intro e he
            obtain ⟨bh, hbh, hph⟩ := phaseOf_bits g (cur, d)
              (hinv.1 (cur, d) (List.mem_cons_self _ _)).1
            obtain ⟨be, hbe, hpe⟩ := phaseOf_bits g e
              (hinv.1 e (List.mem_cons_of_mem _ he)).1
            have h3 := (List.pairwise_cons.mp hinv.2.1).1 e he
            rw [hph, hpe] at h3
            simp only at h3
            omega
          have h1e := gnLoop_dead g ip r1 fuel qrest v acc hdead
          have hres1 : res1 = acc := by
            rw [h1e] at h1
            injection h1 with h1b
            exact h1b.symm
          rcases hexp : gnExpand g ip cur d (adjOf g cur) qrest v acc with _ | q2v2
          · rw [hexp] at h2
            cases h2
          · rw [hexp] at h2
            obtain ⟨q2, v2, acc2⟩ := q2v2
            obtain ⟨tail2, ht⟩ := gnLoop_acc_grows g ip r2 fuel q2 v2 acc2 res2 h2
            obtain ⟨ad, had⟩ := gnExpand_acc_grows g ip cur d (adjOf g cur)
              qrest v acc q2 v2 acc2 hexp
            exact ⟨ad ++ tail2,
              by rw [ht, had, hres1, List.append_assoc]⟩
        · rw [if_neg hr1] at h1
          rw [if_neg hr2] at h2
          rcases hexp : gnExpand g ip cur d (adjOf g cur) qrest v acc with _ | q2v2
          · rw [hexp] at h1
            cases h1
          · rw [hexp] at h1 h2
            obtain ⟨q2, v2, acc2⟩ := q2v2
            have hcurnode := (hinv.1 (cur, d) (List.mem_cons_self _ _)).1
            rcases hnc : dget? g.nodes cur with _ | nc
            · rw [hnc] at hcurnode
              cases hcurnode
            · obtain ⟨qd, hq2, hqd⟩ := gnExpand_phase g ip cur d nc hw hnc
                (adjOf g cur) qrest v acc q2 v2 acc2 (fun nb hnb => hnb) hexp
              have hinv2 : gnQInv g q2 := by
                rw [hq2]
                exact gnQInv_step g cur d qrest qd hinv hqd
              exact ih r1 r2 q2 v2 acc2 res1 res2 hr hinv2 h1 h2

/-!  Claim theorems. -/

/-- C3: a `get_data` call whose key is cached with a stored hash equal to
the hash of the current file bytes returns the identical cached graph and
data without parsing and leaves the cache unchanged; after the file bytes
change (stored hash differs from the current hash) it parses, builds a
fresh graph from the new content, returns it and replaces the cache entry
with the fresh graph and the new hash. -/
theorem claim3_cache_hit_and_invalidate
    (hashFn : List Nat → Nat) (fileContent : String → List Nat)
    (parse : List Nat → Netlist) (harvested : List String)
    (cache : Cache) (project_path schematic_path : String) (e : CacheEntry)
    (h1 : dget? cache (project_path ++ ":" ++ schematic_path) = some e) :
    (e.hash = hashFn (fileContent schematic_path) →
      get_data hashFn fileContent parse harvested cache project_path schematic_path =
        ⟨e.graph, e.structured_data, cache, false⟩) ∧
    (¬ e.hash = hashFn (fileContent schematic_path) →
      get_data hashFn fileContent parse harvested cache project_path schematic_path =
        ⟨mkCircuitGraph (parse (fileContent schematic_path))
            (if project_path = "" then none else some project_path) harvested,
          parse (fileContent schematic_path),
          dset cache (project_path ++ ":" ++ schematic_path)
            ⟨mkCircuitGraph (parse (fileContent schematic_path))
                (if project_path = "" then none else some project_path) harvested,
              parse (fileContent schematic_path),
              hashFn (fileContent schematic_path)⟩,
          true⟩) := by
  constructor <;> intro h2 <;> simp [get_data, h1, h2]

/-- C3 witness: a one-entry cache whose stored hash matches the current
content hash is hit without a rebuild. -/
theorem claim3_cache_witness :
    get_data (fun l => l.length) (fun _ => [0]) (fun _ => chainNetlist) []
      [("p:s", ⟨chainGraph, chainNetlist, 1⟩)] "p" "s" =
      ⟨chainGraph, chainNetlist, [("p:s", ⟨chainGraph, chainNetlist, 1⟩)], false⟩ :=
  (claim3_cache_hit_and_invalidate (fun l => l.length) (fun _ => [0])
    (fun _ => chainNetlist) [] [("p:s", ⟨chainGraph, chainNetlist, 1⟩)] "p" "s"
    ⟨chainGraph, chainNetlist, 1⟩ (by decide) ).1 rfl

/-- C8: in any constructed graph, `find_path(X, X, ...)` on a present
node X succeeds with the single-node path and a `path_length` of 1 for a
component node and 0 for a net node; moreover the outcome does not
depend on the adjacency lists — any graph with the same node table and
an adjacency key for X yields the same result, so no adjacency is
traversed. -/
theorem claim8_trivial_path (nl : Netlist) (ps : List String) (X : String)
    (ip : Bool) (d : Nat) (nd : NodeData)
    (h : dget? (buildGraph nl ps).nodes X = some nd) :
    (find_path (buildGraph nl ps) X X ip d =
      (if nd.ntype = NType.component then
        some (FPResult.ok [X] 1 [(none, nd)])
      else some (FPResult.ok [X] 0 []))) ∧
    (∀ g2 : CircuitGraph, g2.nodes = (buildGraph nl ps).nodes →
      dmem g2.adjacency_list X = true →
      find_path g2 X X ip d = find_path (buildGraph nl ps) X X ip d) := by
  have hadj : dmem (buildGraph nl ps).adjacency_list X = true :=
    buildGraph_nodes_mem_adj nl ps X (by simp [dmem, h])
  constructor
  · simp [find_path, hadj, h]
  · intro g2 hn2 ha2
    simp [find_path, hadj, ha2, hn2, h]

/-- C8 witness: the trivial path at the component R1 of the chain
graph. -/
theorem claim8_trivial_path_witness :
    find_path chainGraph "R1" "R1" true 5 =
      some (FPResult.ok ["R1"] 1 [(none, ⟨NType.component, [("value", "1k")]⟩)]) :=
  (claim8_trivial_path chainNetlist [] "R1" true 5
    ⟨NType.component, [("value", "1k")]⟩ rfl).1

/-- C1: on the chain netlist, `find_path("R1", "R3", ignore_power=false,
max_depth=10)` succeeds with the path R1, Net1, R2, Net2, R3 — but the
reported `path_length` is 2, not the 3 that the claim (and the repository
test `test_path`) demands: the breadth-first search starts its component
counter at 0 and never counts the start component. -/
theorem claim1_chain_scenario_path_length_two :
    find_path chainGraph "R1" "R3" false 10 =
      some (FPResult.ok ["R1", "Net1", "R2", "Net2", "R3"] 2
        [(some "R1", ⟨NType.component, [("value", "1k")]⟩),
         (some "R2", ⟨NType.component, [("value", "2k")]⟩),
         (some "R3", ⟨NType.component, [("value", "3k")]⟩)]) ∧
    countComp chainGraph ["R1", "Net1", "R2", "Net2", "R3"] = 3 := by
  constructor
  · rfl
  · rfl

/-- C2: with an empty harvested power-symbol set, a net named exactly GND
joining two passive pins is traversed by `find_path` under
`ignore_power=true` and appears on the returned path: the source has no
static well-known power-symbol table (the test suite imports
`GLOBAL_KICAD_POWER_SYMBOLS` from the module, but no such table exists
there), so nothing classifies GND as a power net. -/
theorem claim2_gnd_traversed_with_empty_harvest :
    find_path gndGraph "R1" "R2" true 10 =
      some (FPResult.ok ["R1", "GND", "R2"] 1
        [(some "R1", ⟨NType.component, [("value", "1k")]⟩),
         (some "R2", ⟨NType.component, [("value", "2k")]⟩)]) ∧
    "GND" ∈ ["R1", "GND", "R2"] := by
  constructor
  · rfl
  · decide

/-- C5: `is_power_edge` applied to two net nodes does not return false —
it raises (the if/elif of lines 239-246 has no else branch, so the
subsequent read of `component_ref` raises `UnboundLocalError`, modelled
by `none`). -/
theorem claim5_is_power_edge_same_kind_raises :
    is_power_edge chainGraph "Net1" "Net2" = none ∧
    ¬ is_power_edge chainGraph "Net1" "Net2" = some false := by
  constructor
  · rfl
  · decide

/-- C4 counterexample: in the colliding netlist every connection
references only declared components, yet adjacency is not symmetric: the
net A processed after net N resets the adjacency entry that the declared
component A had already accumulated, so A is a neighbor of N but N is no
longer a neighbor of A. -/
theorem claim4_symmetry_counterexample :
    "A" ∈ adjOf collideGraph "N" ∧ ¬ "N" ∈ adjOf collideGraph "A" := by
  decide

/-- C6 counterexample: construction does not skip the connection whose
reference R9 is undeclared — R9 gains an adjacency entry (through the
`defaultdict`) and an edge with its pin, although it gains no node. -/
theorem claim6_undeclared_ref_counterexample :
    dmem ghostGraph.adjacency_list "R9" = true ∧
    dget? ghostGraph.edges ("R9", "Net1") = some ["1"] ∧
    dmem ghostGraph.nodes "R9" = false := by
  refine ⟨rfl, rfl, rfl⟩

/-- C4 amended: for a wellformed netlist — connections reference only
declared components AND the component-reference and net-name spaces do
not collide — every declared component and net appears exactly once among
the node keys and among the adjacency keys (the key lists are exactly the
declared names, without duplicates, so isolated nodes are queryable), and
adjacency is symmetric. -/
theorem claim4_build_nodes_adjacency_symmetric (nl : Netlist) (ps : List String)
    (hwf : wfNetlist nl) :
    dkeys (buildGraph nl ps).nodes = dkeys nl.components ++ dkeys nl.nets ∧
    dkeys (buildGraph nl ps).adjacency_list = dkeys nl.components ++ dkeys nl.nets ∧
    (dkeys nl.components ++ dkeys nl.nets).Nodup ∧
    (∀ a b, b ∈ adjOf (buildGraph nl ps) a ↔ a ∈ adjOf (buildGraph nl ps) b) := by
  obtain ⟨hck, hnk, hdisj, hconn⟩ := hwf
  have hbase := compStage_props nl ps hck
  have hsym0 : symAdj (compStage nl ps).adjacency_list := by
    intro a b hb
    rw [hbase.2.2 a] at hb
    cases hb
  have hend0 : endpointsAdj (compStage nl ps).adjacency_list (dkeys nl.components) [] := by
    intro a b hb
    rw [hbase.2.2 a] at hb
    cases hb
  have hmain := nets_fold_inv (dkeys nl.components) nl.nets (compStage nl ps) []
    (by simpa using hnk)
    (by
      intro p hp h2
      exact hdisj p.1 h2 (List.mem_map_of_mem Prod.fst hp))
    (by intro k hk; cases hk)
    (fun p hp => hconn p hp)
    (by simpa using hbase.1)
    (by simpa using hbase.2.1)
    hsym0 hend0
  have hsymm := hmain.2.2.1
  refine ⟨by simpa using hmain.1, by simpa using hmain.2.1, ?_, ?_⟩
  · refine List.Nodup.append hck hnk ?_
    intro a ha
    exact hdisj a ha
  · intro a b
    unfold buildGraph
    exact ⟨fun h => hsymm a b h, fun h => hsymm b a h⟩

/-- C4 witness: the chain netlist is wellformed and its graph carries
each declared name exactly once with symmetric adjacency. -/
theorem claim4_build_witness :
    dkeys chainGraph.nodes = ["R1", "R2", "R3"] ++ ["Net1", "Net2"] ∧
    dkeys chainGraph.adjacency_list = ["R1", "R2", "R3"] ++ ["Net1", "Net2"] ∧
    (["R1", "R2", "R3"] ++ ["Net1", "Net2"] : List String).Nodup ∧
    (∀ a b, b ∈ adjOf chainGraph a ↔ a ∈ adjOf chainGraph b) :=
  claim4_build_nodes_adjacency_symmetric chainNetlist []
    ⟨by decide, by decide, by decide, by decide⟩

/-- C6 amended: graph construction completes on a connection whose
component reference is undeclared (not a component reference and not a
net name), and the reference gains no node record — but the connection is
not skipped: through the `defaultdict` the undeclared reference gains an
adjacency entry, and the `(reference, net)` edge is recorded. -/
theorem claim6_undeclared_ref_behavior
    (nl : Netlist) (ps : List String) (n0 : String) (cs : List Conn) (c : Conn)
    (hnet : (n0, cs) ∈ nl.nets) (hc : c ∈ cs)
    (hnc : ¬ c.component ∈ dkeys nl.components)
    (hnn : ¬ c.component ∈ dkeys nl.nets) :
    dmem (buildGraph nl ps).nodes c.component = false ∧
    dmem (buildGraph nl ps).adjacency_list c.component = true ∧
    dmem (buildGraph nl ps).edges (c.component, n0) = true := by
  obtain ⟨s, t, hsplit⟩ := List.append_of_mem hnet
  obtain ⟨cs1, cs2, hcsplit⟩ := List.append_of_mem hc
  have hmid : ∀ gmid : CircuitGraph,
      dmem (buildGraphStep gmid (n0, cs)).adjacency_list c.component = true ∧
      dmem (buildGraphStep gmid (n0, cs)).edges (c.component, n0) = true := by
    intro gmid
    unfold buildGraphStep
    simp only
    rw [hcsplit, List.foldl_append, List.foldl_cons]
    constructor
    · exact dmem_adj_foldl_addConn _ _ _ _ (addConn_self_adj _ _ _)
    · exact dmem_edges_foldl_addConn _ _ _ _ (addConn_self_edge _ _ _)
  have hbuild : buildGraph nl ps =
      t.foldl buildGraphStep (buildGraphStep ((s.foldl buildGraphStep (compStage nl ps))) (n0, cs)) := by
    unfold buildGraph
    rw [hsplit, List.foldl_append]
    rfl
  refine ⟨?_, ?_, ?_⟩
  · cases hb : dmem (buildGraph nl ps).nodes c.component with
    | false => rfl
    | true =>
      rcases buildGraph_nodes_keys_declared nl ps c.component hb with h3 | h3
      · exact absurd h3 hnc
      · exact absurd h3 hnn
  · rw [hbuild]
    exact dmem_adj_foldl_steps _ _ _ (hmid _).1
  · rw [hbuild]
    exact dmem_edges_foldl_steps _ _ _ (hmid _).2

/-- C6 witness: the concrete netlist with the undeclared reference R9
instantiates the amended theorem. -/
theorem claim6_undeclared_ref_witness :
    dmem ghostGraph.nodes "R9" = false ∧
    dmem ghostGraph.adjacency_list "R9" = true ∧
    dmem ghostGraph.edges ("R9", "Net1") = true :=
  claim6_undeclared_ref_behavior ghostNetlist [] "Net1"
    [⟨"R1", "1", none⟩, ⟨"R9", "1", none⟩] ⟨"R9", "1", none⟩
    (by decide) (by decide) (by decide) (by decide)

/-- C7 counterexample: with `max_depth=1` the search still returns a
successful path carrying two component nodes, because the start component
is never counted: the bound restricts `path_length`, which excludes the
start, so a returned path can hold `max_depth + 1` components. -/
theorem claim7_max_depth_counterexample :
    find_path chainGraph "R1" "R2" false 1 =
      some (FPResult.ok ["R1", "Net1", "R2"] 1
        [(some "R1", ⟨NType.component, [("value", "1k")]⟩),
         (some "R2", ⟨NType.component, [("value", "2k")]⟩)]) ∧
    countComp chainGraph ["R1", "Net1", "R2"] = 2 ∧ 1 < 2 := by
  refine ⟨rfl, rfl, by decide⟩

/-- C10: every successful `find_path` result is a path that begins at the
start node, ends at the end node, repeats no node, and steps only along
the adjacency lists. -/
theorem claim10_path_wellformed (g : CircuitGraph) (s e : String) (ip : Bool)
    (maxd : Nat) (p : List String) (len : Nat) (det : List Detail)
    (h : find_path g s e ip maxd = some (FPResult.ok p len det)) :
    ¬ p = [] ∧ p.head? = some s ∧ p.getLast? = some e ∧ p.Nodup ∧
    List.Chain' (fun a b => b ∈ adjOf g a) p := by
  unfold find_path at h
  by_cases hguard : ¬ (dmem g.adjacency_list s ∧ dmem g.adjacency_list e)
  · rw [if_pos hguard] at h
    injection h with h2
    cases h2
  · rw [if_neg hguard] at h
    by_cases hse : s = e
    · subst hse
      rw [if_pos rfl] at h
      rcases hnd : dget? g.nodes s with _ | nd
      · rw [hnd] at h
        cases h
      · rw [hnd] at h
        by_cases hcomp : nd.ntype = NType.component
        · simp [hcomp] at h
          obtain ⟨hp, hlen, hdet⟩ := h
          subst hp
          exact ⟨by simp, rfl, rfl, List.nodup_singleton s,
            List.chain'_singleton s⟩
        · simp [hcomp] at h
          obtain ⟨hp, hlen, hdet⟩ := h
          subst hp
          exact ⟨by simp, rfl, rfl, List.nodup_singleton s,
            List.chain'_singleton s⟩
    · rw [if_neg hse] at h
      have hinv : fpQInv g s [s] [(s, [s], 0)] := by
        refine ⟨List.mem_singleton_self s, ?_⟩
        intro e2 he2
        rw [List.mem_singleton.mp he2]
        exact ⟨by simp, rfl, rfl, List.chain'_singleton s,
          List.nodup_singleton s, fun x hx => hx, by simp⟩
      obtain ⟨p1, p2, p3, p4, p5, _, _⟩ :=
        fpLoop_sound g s e ip maxd (fpFuel g) [(s, [s], 0)] [s] p len det hinv h
      exact ⟨p1, p2, p3, p5, p4⟩

/-- C10 witness: the successful chain search instantiates the path
wellformedness properties. -/
theorem claim10_path_witness :
    ¬ (["R1", "Net1", "R2", "Net2", "R3"] : List String) = [] ∧
    (["R1", "Net1", "R2", "Net2", "R3"] : List String).head? = some "R1" ∧
    (["R1", "Net1", "R2", "Net2", "R3"] : List String).getLast? = some "R3" ∧
    (["R1", "Net1", "R2", "Net2", "R3"] : List String).Nodup ∧
    List.Chain' (fun a b => b ∈ adjOf chainGraph a)
      ["R1", "Net1", "R2", "Net2", "R3"] :=
  claim10_path_wellformed chainGraph "R1" "R3" false 10
    ["R1", "Net1", "R2", "Net2", "R3"] 2
    [(some "R1", ⟨NType.component, [("value", "1k")]⟩),
     (some "R2", ⟨NType.component, [("value", "2k")]⟩),
     (some "R3", ⟨NType.component, [("value", "3k")]⟩)] rfl

/-- C7 amended: a successful `find_path` result under `max_depth=N`
carries at most N+1 component nodes — the reported `path_length`, which
does not count the start node, is bounded by N on the breadth-first
branch, so the full component count can reach N+1; and when the depth
bound prunes the whole search the function returns the failure dict, not
a truncated prefix (by C10 every successful path ends at the target). -/
theorem claim7_component_count_bounded (g : CircuitGraph) (s e : String)
    (ip : Bool) (N : Nat) (p : List String) (len : Nat) (det : List Detail)
    (h : find_path g s e ip N = some (FPResult.ok p len det)) :
    countComp g p ≤ N + 1 ∧ (¬ s = e → len ≤ N) := by
  have hone : ∀ x : String, countComp g [x] ≤ 1 := by
    intro x
    have := List.length_filter_le (fun y =>
      match dget? g.nodes y with
      | some nd => decide (nd.ntype = NType.component)
      | none => false) [x]
    simpa [countComp] using this
  unfold find_path at h
  by_cases hguard : ¬ (dmem g.adjacency_list s ∧ dmem g.adjacency_list e)
  · rw [if_pos hguard] at h
    injection h with h2
    cases h2
  · rw [if_neg hguard] at h
    by_cases hse : s = e
    · rw [if_pos hse] at h
      rcases hnd : dget? g.nodes s with _ | nd
      · rw [hnd] at h
        cases h
      · rw [hnd] at h
        by_cases hcomp : nd.ntype = NType.component
        · simp [hcomp] at h
          obtain ⟨hp, hlen, hdet⟩ := h
          refine ⟨?_, fun hne => absurd hse hne⟩
          rw [← hp]
          have := hone s
          omega
        · simp [hcomp] at h
          obtain ⟨hp, hlen, hdet⟩ := h
          refine ⟨?_, fun hne => absurd hse hne⟩
          rw [← hp]
          have := hone s
          omega
    · rw [if_neg hse] at h
      have hinv : fpQInv g s [s] [(s, [s], 0)] := by
        refine ⟨List.mem_singleton_self s, ?_⟩
        intro e2 he2
        rw [List.mem_singleton.mp he2]
        exact ⟨by simp, rfl, rfl, List.chain'_singleton s,
          List.nodup_singleton s, fun x hx => hx, by simp⟩
      obtain ⟨_, _, _, _, _, p6, p7⟩ :=
        fpLoop_sound g s e ip N (fpFuel g) [(s, [s], 0)] [s] p len det hinv h
      have := hone s
      exact ⟨by omega, fun _ => p7⟩

/-- In a wellformed graph (adjacency closed under node records and
bipartite), enlarging the radius never removes neighborhood members:
every member reported by `get_neighborhood` at radius r1 is also
reported at any radius r2 at or above r1 (the smaller result is in fact
a prefix of the larger one). -/
theorem gn_mono_of_wfGraph (g : CircuitGraph) (X : String) (ip : Bool)
    (r1 r2 : Nat) (hw : wfGraph g = true) (hr : r1 ≤ r2)
    (res1 res2 : GNResult)
    (h1 : get_neighborhood g X ip r1 = some res1)
    (h2 : get_neighborhood g X ip r2 = some res2) :
    ∀ m ∈ res1.members, m ∈ res2.members := by
  unfold get_neighborhood at h1 h2
  by_cases hmem : dmem g.adjacency_list X = true
  · rw [if_neg (not_not_intro hmem)] at h1 h2
    rcases ha1 : gnLoop g ip r1 (fpFuel g) [(X, 0)] [X] [] with _ | acc1
    · rw [ha1] at h1
      cases h1
    · rw [ha1] at h1
      injection h1 with h1b
      rcases ha2 : gnLoop g ip r2 (fpFuel g) [(X, 0)] [X] [] with _ | acc2
      · rw [ha2] at h2
        cases h2
      · rw [ha2] at h2
        injection h2 with h2b
        have hXnode : (dget? g.nodes X).isSome = true := by
          rcases hl : dget? g.adjacency_list X with _ | l
          · rw [dmem, hl] at hmem
            cases hmem
          · obtain ⟨na, hna, _⟩ := wfGraph_entry g hw X l hl
            rw [hna]
            rfl
        have hinv : gnQInv g [(X, 0)] := by
          refine ⟨?_, List.pairwise_singleton _ _, ?_⟩
          · intro e he
            rw [List.mem_singleton.mp he]
            exact ⟨hXnode, hmem⟩
          · intro a ha b hb
            rw [List.mem_singleton.mp ha, List.mem_singleton.mp hb]
            omega
        obtain ⟨tail, ht⟩ := gnLoop_mono g ip hw (fpFuel g) r1 r2 [(X, 0)] [X] []
          acc1 acc2 hr hinv ha1 ha2
        intro m hm
        rw [← h1b] at hm
        rw [← h2b, GNResult.members, ht]
        rw [GNResult.members] at hm
        exact List.mem_append_left _ hm
  · rw [if_pos hmem] at h1 h2
    injection h1 with h1b
    injection h2 with h2b
    intro m hm
    rw [← h1b, GNResult.members] at hm
    cases hm

theorem dget?_of_mem_nodup {κ α : Type} [DecidableEq κ] (d : List (κ × α))
    (k : κ) (v : α) (hnd : (dkeys d).Nodup) (h : (k, v) ∈ d) :
    dget? d k = some v := by
  induction d with
  | nil => cases h
  | cons p rest ih =>
    obtain ⟨pk, pv⟩ := p
    rcases List.mem_cons.mp h with h2 | h2
    · injection h2 with h3 h4
      rw [dget?, if_pos h3.symm, h4]
    · have hne : ¬ pk = k := by
        intro h3
        have h4 : k ∈ dkeys rest := h3 ▸ List.mem_map_of_mem Prod.fst h2
        rw [dkeys, List.map_cons] at hnd
        exact (List.nodup_cons.mp hnd).1 (h3 ▸ h4)
      rw [dget?, if_neg hne]
      rw [dkeys, List.map_cons] at hnd
      exact ih (List.nodup_cons.mp hnd).2 h2

/-- After the component pass, every node record is typed as a
component. -/
theorem compStage_types (nl : Netlist) (ps : List String) :
    ∀ x nd, dget? (compStage nl ps).nodes x = some nd →
      nd.ntype = NType.component := by
  unfold compStage
  refine pres_foldl
    (fun g : CircuitGraph =>
      ∀ x nd, dget? g.nodes x = some nd → nd.ntype = NType.component)
    _ ?_ nl.components _ ?_
  · intro g p hg x nd h
    simp only at h
    by_cases hx : x = p.1
    · rw [hx, dget?_dset_self] at h
      injection h with h2
      rw [← h2]
    · rw [dget?_dset_ne _ _ _ _ hx] at h
      exact hg x nd h
  · intro x nd h
    cases h

/-- After the net pass, processed net names carry net-typed node records
and all other node records are untouched. -/
theorem nets_fold_types :
    ∀ (l : List (String × List Conn)) (g : CircuitGraph),
    (l.map Prod.fst).Nodup →
    (∀ n ∈ l.map Prod.fst, ∀ nd, dget? g.nodes n = some nd → False) →
    (∀ n ∈ l.map Prod.fst,
      dget? (l.foldl buildGraphStep g).nodes n = some ⟨NType.net, []⟩) ∧
    (∀ x, ¬ x ∈ l.map Prod.fst →
      dget? (l.foldl buildGraphStep g).nodes x = dget? g.nodes x) := by
  intro l
  induction l with
  | nil =>
    intro g _ _
    exact ⟨fun n hn => absurd hn (List.not_mem_nil n), fun x _ => rfl⟩
  | cons p rest ih =>
    intro g hnd hfresh
    obtain ⟨n, cs⟩ := p
    rw [List.map_cons] at hnd hfresh
    have hn_rest : ¬ n ∈ rest.map Prod.fst := (List.nodup_cons.mp hnd).1
    have hstep_nodes : (buildGraphStep g (n, cs)).nodes =
        dset g.nodes n ⟨NType.net, []⟩ := by
      unfold buildGraphStep
      rw [foldl_addConn_nodes]
    have hrest := ih (buildGraphStep g (n, cs)) (List.nodup_cons.mp hnd).2
      (by
        intro m hm nd hlook
        rw [hstep_nodes] at hlook
        have hmn : ¬ m = n := fun h2 => hn_rest (h2 ▸ hm)
        rw [dget?_dset_ne _ _ _ _ hmn] at hlook
        exact hfresh m (List.mem_cons_of_mem _ hm) nd hlook)
    rw [List.foldl_cons]
    constructor
    · intro m hm
      simp only [List.map_cons] at hm
      rcases List.mem_cons.mp hm with h2 | h2
      · have h3 : m = n := h2
        rw [h3, hrest.2 n hn_rest, hstep_nodes, dget?_dset_self]
      · exact hrest.1 m h2
    · intro x hx
      simp only [List.map_cons] at hx
      have hxn : ¬ x = n := fun h2 => hx (h2 ▸ List.mem_cons_self _ _)
      have hxr : ¬ x ∈ rest.map Prod.fst :=
        fun h2 => hx (List.mem_cons_of_mem _ h2)
      rw [hrest.2 x hxr, hstep_nodes, dget?_dset_ne _ _ _ _ hxn]

/-- A graph built from a wellformed netlist satisfies the data-model
invariants the traversals rely on: adjacency keys and members carry node
records, members have adjacency keys of their own, and every adjacency
pair joins a component-typed node with a net-typed node. -/
theorem buildGraph_wf (nl : Netlist) (ps : List String) (hwf : wfNetlist nl) :
    wfGraph (buildGraph nl ps) = true := by
  obtain ⟨hck, hnk, hdisj, hconn⟩ := hwf
  have hbase := compStage_props nl ps hck
  have hsym0 : symAdj (compStage nl ps).adjacency_list := by
    intro a b hb
    rw [hbase.2.2 a] at hb
    cases hb
  have hend0 : endpointsAdj (compStage nl ps).adjacency_list
      (dkeys nl.components) [] := by
    intro a b hb
    rw [hbase.2.2 a] at hb
    cases hb
  have hmain := nets_fold_inv (dkeys nl.components) nl.nets (compStage nl ps) []
    (by simpa using hnk)
    (by
      intro p hp h2
      exact hdisj p.1 h2 (List.mem_map_of_mem Prod.fst hp))
    (by intro k hk; cases hk)
    (fun p hp => hconn p hp)
    (by simpa using hbase.1)
    (by simpa using hbase.2.1)
    hsym0 hend0
  have hkeysn : dkeys (buildGraph nl ps).nodes =
      dkeys nl.components ++ dkeys nl.nets := by
    have := hmain.1
    simpa using this
  have hkeysa : dkeys (buildGraph nl ps).adjacency_list =
      dkeys nl.components ++ dkeys nl.nets := by
    have := hmain.2.1
    simpa using this
  have hend : endpointsAdj (buildGraph nl ps).adjacency_list
      (dkeys nl.components) (dkeys nl.nets) := by
    have := hmain.2.2.2
    simpa using this
  have htypes := nets_fold_types nl.nets (compStage nl ps)
    (by simpa using hnk)
    (by
      intro n hn nd hlook
      have h2 : n ∈ dkeys (compStage nl ps).nodes :=
        (dmem_iff_mem_dkeys _ _).mp (by rw [dmem, hlook]; rfl)
      rw [hbase.1] at h2
      exact hdisj n h2 hn)
  have htypec : ∀ c ∈ dkeys nl.components,
      ∃ nd, dget? (buildGraph nl ps).nodes c = some nd ∧
        nd.ntype = NType.component := by
    intro c hc
    have hcn : ¬ c ∈ nl.nets.map Prod.fst := fun h2 => hdisj c hc h2
    have h3 : dget? (buildGraph nl ps).nodes c =
        dget? (compStage nl ps).nodes c := htypes.2 c hcn
    have h4 : dmem (compStage nl ps).nodes c = true := by
      rw [dmem_iff_mem_dkeys, hbase.1]
      exact hc
    rcases h5 : dget? (compStage nl ps).nodes c with _ | nd
    · rw [dmem, h5] at h4
      cases h4
    · exact ⟨nd, by rw [h3, h5], compStage_types nl ps c nd h5⟩
  have htypen : ∀ n ∈ dkeys nl.nets,
      dget? (buildGraph nl ps).nodes n = some ⟨NType.net, []⟩ :=
    fun n hn => htypes.1 n hn
  have hkeysnd : (dkeys (buildGraph nl ps).adjacency_list).Nodup := by
    rw [hkeysa]
    refine List.Nodup.append hck hnk ?_
    intro a ha
    exact hdisj a ha
  rw [wfGraph, List.all_eq_true]
  intro p hp
  obtain ⟨k, l⟩ := p
  have hkl : dget? (buildGraph nl ps).adjacency_list k = some l :=
    dget?_of_mem_nodup _ _ _ hkeysnd hp
  have hkmem : k ∈ dkeys nl.components ++ dkeys nl.nets := by
    rw [← hkeysa]
    exact List.mem_map_of_mem Prod.fst hp
  have hknode : ∃ ndk, dget? (buildGraph nl ps).nodes k = some ndk ∧
      ((k ∈ dkeys nl.components ∧ ndk.ntype = NType.component) ∨
        (k ∈ dkeys nl.nets ∧ ndk.ntype = NType.net)) := by
    rcases List.mem_append.mp hkmem with h2 | h2
    · obtain ⟨nd, hnd, hty⟩ := htypec k h2
      exact ⟨nd, hnd, Or.inl ⟨h2, hty⟩⟩
    · exact ⟨⟨NType.net, []⟩, htypen k h2, Or.inr ⟨h2, rfl⟩⟩
  obtain ⟨ndk, hndk, hcase⟩ := hknode
  simp only [hndk]
  rw [List.all_eq_true]
  intro nb hnb
  have hnb2 : nb ∈ aget (buildGraph nl ps).adjacency_list k := by
    rw [aget, hkl]
    simpa using hnb
  have hpair := hend k nb hnb2
  have hnbmem : nb ∈ dkeys nl.components ++ dkeys nl.nets := by
    rcases hpair with ⟨_, h3⟩ | ⟨_, h3⟩
    · exact List.mem_append_right _ h3
    · exact List.mem_append_left _ h3
  have hnbadj : dmem (buildGraph nl ps).adjacency_list nb = true := by
    rw [dmem_iff_mem_dkeys, hkeysa]
    exact hnbmem
  have hnbnode : ∃ ndb, dget? (buildGraph nl ps).nodes nb = some ndb ∧
      ¬ ndb.ntype = ndk.ntype := by
    rcases hpair with ⟨h3, h4⟩ | ⟨h3, h4⟩
    · rcases hcase with ⟨_, h6⟩ | ⟨h5, _⟩
      · exact ⟨⟨NType.net, []⟩, htypen nb h4, by rw [h6]; simp⟩
      · exact absurd hconn (by
          intro _
          exact hdisj k h3 h5)
    · rcases hcase with ⟨h5, _⟩ | ⟨_, h6⟩
      · exact absurd hconn (by
          intro _
          exact hdisj k h5 h3)
      · obtain ⟨nd, hnd, hty⟩ := htypec nb h4
        exact ⟨nd, hnd, by rw [hty, h6]; simp⟩
  obtain ⟨ndb, hndb, htyne⟩ := hnbnode
  rw [hnbadj, hndb]
  simp [htyne]

/-- C9: for every graph built from a wellformed netlist (connections
reference declared components, no name collision between the identifier
spaces), every node X, every power flag and all radii r1 at most r2,
every member of the radius-r1 neighborhood of X is also a member of the
radius-r2 neighborhood: increasing the radius never removes
previously-found members. -/
theorem claim9_neighborhood_monotone (nl : Netlist) (ps : List String)
    (X : String) (ip : Bool) (r1 r2 : Nat) (hwf : wfNetlist nl) (hr : r1 ≤ r2)
    (res1 res2 : GNResult)
    (h1 : get_neighborhood (buildGraph nl ps) X ip r1 = some res1)
    (h2 : get_neighborhood (buildGraph nl ps) X ip r2 = some res2) :
    ∀ m ∈ res1.members, m ∈ res2.members :=
  gn_mono_of_wfGraph (buildGraph nl ps) X ip r1 r2
    (buildGraph_wf nl ps hwf) hr res1 res2 h1 h2

/-- C9 witness: on the chain graph, the radius-1 neighborhood member of
R1 also appears at radius 2. -/
theorem claim9_monotone_witness :
    ((1 : Nat), "R2") ∈ (GNResult.ok "R1" 2 [(1, "R2"), (2, "R3")]).members :=
  claim9_neighborhood_monotone chainNetlist [] "R1" false 1 2
    ⟨by decide, by decide, by decide, by decide⟩
    (by decide) (GNResult.ok "R1" 1 [(1, "R2")])
    (GNResult.ok "R1" 2 [(1, "R2"), (2, "R3")]) rfl rfl
    (1, "R2") (by decide)

/-- C7 witness: the chain search with the default depth bound satisfies
the amended bounds. -/
theorem claim7_bound_witness :
    countComp chainGraph ["R1", "Net1", "R2", "Net2", "R3"] ≤ 10 + 1 ∧
    (¬ "R1" = "R3" → 2 ≤ 10) :=
  claim7_component_count_bounded chainGraph "R1" "R3" false 10
    ["R1", "Net1", "R2", "Net2", "R3"] 2
    [(some "R1", ⟨NType.component, [("value", "1k")]⟩),
     (some "R2", ⟨NType.component, [("value", "2k")]⟩),
     (some "R3", ⟨NType.component, [("value", "3k")]⟩)] rfl

end KicadGraph
